import Mathlib

/-!
Verification of the tako symbol-extraction and tree-rendering engine.

This file gives a shallow embedding of the engine implemented in `main.go`
of the tako repository: the syntax-tree data model, the comment attacher
(`precedingComments`), the signature assembler (`EverythingExceptBody`),
the pattern query matcher (`QueryCaptures`) and the kind-specific queries,
the symbol catalog builder (`QuerySymbols`), the extension-to-grammar
table (`GetLanguageFromExtension`, `ParseFile`), and the structural tree
renderer (`PrintParseTree` / `PrintTree`).

Modelling conventions:
* Source code is a byte buffer; we model it as `List Char` with one `Char`
  per byte (the concrete examples are ASCII).  `node.Content(sourceCode)`
  is the slice `sourceCode[startByte:endByte]`.
* Tree-sitter nodes are immutable trees.  A node records its kind, its
  named flag, its field name within its parent, its byte and point range,
  and its children.  Parent links are passed explicitly where the Go code
  calls `node.Parent()`.
* `sitter.Node.Equal` (node identity) is modelled by structural equality
  `Node.beq`; positional parents are tracked by the query matcher, so a
  capture's parent is the actual parent node in the traversal.
* Machine integers (`uint32`, `int`) are modelled as `Nat`; the places
  where Go performs a possibly-negative subtraction followed by a
  positivity test are modelled by truncated `Nat` subtraction, which
  yields the same test result.
* Fallible external operations (query compilation by `sitter.NewQuery`)
  are modelled by an environment field `Document.compileError` giving, for
  the document's grammar, the compile error (if any) of a pattern string.
-/

namespace Tako

/-- A tree-sitter point: row and column. -/
structure Point where
  row : Nat
  column : Nat
deriving DecidableEq, Repr

/-- A tree-sitter syntax node: kind, named flag, field name within the
parent, byte range, point range, and children in source order. -/
inductive Node where
  | mk (kind : String) (named : Bool) (fieldName : String)
       (startByte endByte : Nat) (startPoint endPoint : Point)
       (children : List Node)
deriving Repr

def Node.kind : Node → String
  | .mk k _ _ _ _ _ _ _ => k

def Node.named : Node → Bool
  | .mk _ nm _ _ _ _ _ _ => nm

def Node.fieldName : Node → String
  | .mk _ _ f _ _ _ _ _ => f

def Node.startByte : Node → Nat
  | .mk _ _ _ s _ _ _ _ => s

def Node.endByte : Node → Nat
  | .mk _ _ _ _ e _ _ _ => e

def Node.startPoint : Node → Point
  | .mk _ _ _ _ _ p _ _ => p

def Node.endPoint : Node → Point
  | .mk _ _ _ _ _ _ q _ => q

def Node.children : Node → List Node
  | .mk _ _ _ _ _ _ _ cs => cs

mutual
/-- Structural equality on nodes; models `sitter.Node.Equal` (node
identity: in a well-formed tree distinct positions carry distinct byte
ranges, so structural equality coincides with identity). -/
def Node.beq : Node → Node → Bool
  | .mk k1 nm1 f1 s1 e1 p1 q1 cs1, .mk k2 nm2 f2 s2 e2 p2 q2 cs2 =>
    k1 == k2 && nm1 == nm2 && f1 == f2 && s1 == s2 && e1 == e2 &&
    p1 == p2 && q1 == q2 && Node.beqChildren cs1 cs2

/-- Pointwise structural equality on child lists. -/
def Node.beqChildren : List Node → List Node → Bool
  | [], [] => true
  | a :: as, b :: bs => Node.beq a b && Node.beqChildren as bs
  | _, _ => false
end

mutual
theorem Node.eq_of_beq : ∀ a b : Node, Node.beq a b = true → a = b
  | .mk k1 nm1 f1 s1 e1 p1 q1 cs1, .mk k2 nm2 f2 s2 e2 p2 q2 cs2, h => by
    simp only [Node.beq, Bool.and_eq_true, beq_iff_eq] at h
    obtain ⟨⟨⟨⟨⟨⟨⟨hk, hn⟩, hf⟩, hs⟩, he⟩, hp⟩, hq⟩, hc⟩ := h
    have := Node.eqChildren_of_beq cs1 cs2 hc
    subst hk hn hf hs he hp hq this
    rfl
theorem Node.eqChildren_of_beq : ∀ as bs : List Node,
    Node.beqChildren as bs = true → as = bs
  | [], [], _ => rfl
  | a :: as, b :: bs, h => by
    simp only [Node.beqChildren, Bool.and_eq_true] at h
    have h1 := Node.eq_of_beq a b h.1
    have h2 := Node.eqChildren_of_beq as bs h.2
    exact h1 ▸ h2 ▸ rfl
  | [], _ :: _, h => by simp [Node.beqChildren] at h
  | _ :: _, [], h => by simp [Node.beqChildren] at h
end

mutual
theorem Node.beq_refl : ∀ a : Node, Node.beq a a = true
  | .mk k nm f s e p q cs => by
    simp only [Node.beq, Bool.and_eq_true, beq_self_eq_true, true_and,
      and_true]
    exact Node.beqChildren_refl cs
theorem Node.beqChildren_refl : ∀ as : List Node, Node.beqChildren as as = true
  | [] => rfl
  | a :: as => by
    simp only [Node.beqChildren, Bool.and_eq_true]
    exact ⟨Node.beq_refl a, Node.beqChildren_refl as⟩
end

theorem Node.beq_iff_eq {a b : Node} : Node.beq a b = true ↔ a = b :=
  ⟨Node.eq_of_beq a b, fun h => h ▸ Node.beq_refl a⟩

instance : DecidableEq Node := fun a b =>
  decidable_of_iff (Node.beq a b = true) Node.beq_iff_eq

theorem Node.sizeOf_children_lt (n : Node) : sizeOf n.children < sizeOf n := by
  cases n with
  | mk k nm f s e p q cs =>
    simp only [Node.children, Node.mk.sizeOf_spec]
    omega

/-- The byte slice `src[a:b]` of a source buffer. -/
def sliceBytes (src : List Char) (a b : Nat) : List Char :=
  (src.take b).drop a

/-- `node.Content(sourceCode)`: the source text spanned by the node. -/
def Node.content (n : Node) (src : List Char) : List Char :=
  sliceBytes src n.startByte n.endByte

/-- A tree-sitter range: start/end points and start/end bytes. -/
structure Range where
  startPoint : Point
  endPoint : Point
  startByte : Nat
  endByte : Nat
deriving DecidableEq, Repr

/-- `GetRange`: build a Range from a node's own span. -/
def GetRange (n : Node) : Range :=
  { startPoint := n.startPoint, endPoint := n.endPoint,
    startByte := n.startByte, endByte := n.endByte }

/-- A symbol: summary text, range, and a back-reference to the node. -/
structure Symbol where
  summary : List Char
  range : Range
  node : Node

/-- A parsed document; `compileError` models, for this document's grammar
handle, the result of `sitter.NewQuery` on a pattern string (`none` means
the pattern compiles). -/
structure Document where
  root : Node
  sourceCode : List Char
  languageName : String
  compileError : String → Option String

/-- `strings.Join(comments, "\n")`. -/
def joinNewline (xs : List (List Char)) : List Char :=
  List.intercalate ['\n'] xs

/-- The sibling scan of `precedingComments`: walk the parent's children in
order; stop at the first sibling whose end byte reaches the target's start
byte; a comment sibling is appended to the running list (recording the
first run member's start position); any other sibling resets the running
list and the pending start point (the recorded start byte is left as is,
exactly as in the Go code, where it is only meaningful when the final
comment list is non-empty). -/
def precedingCommentsLoop (src : List Char) (tStart : Nat) :
    List Node → List (List Char) → Option Point → Nat →
    List (List Char) × Option Point × Nat
  | [], comments, sp, sb => (comments, sp, sb)
  | c :: rest, comments, sp, sb =>
    if tStart ≤ c.endByte then (comments, sp, sb)
    else if c.kind = "comment" then
      match sp with
      | none => precedingCommentsLoop src tStart rest
          (comments ++ [c.content src]) (some c.startPoint) c.startByte
      | some p => precedingCommentsLoop src tStart rest
          (comments ++ [c.content src]) (some p) sb
    else precedingCommentsLoop src tStart rest [] none sb

/-- `precedingComments(node, sourceCode)`: the comment text attached to a
declaration, its start point, and its start byte.  The parent link
(`node.Parent()` in Go) is passed explicitly; `none` models a nil parent,
for which the Go code returns `("", nil, 0)`. -/
def precedingComments (node : Node) (parent : Option Node) (src : List Char) :
    List Char × Option Point × Nat :=
  match parent with
  | none => ([], none, 0)
  | some p =>
    let r := precedingCommentsLoop src node.startByte p.children [] none 0
    (joinNewline r.1, r.2.1, r.2.2)

/-- The child-emitting loop of `EverythingExceptBody`: children whose field
name is "body" are skipped; a single space precedes every emitted fragment
after the first, except a fragment whose field name is "parameters". -/
def assembleRest (src : List Char) : List Node → Bool → List Char
  | [], _ => []
  | c :: rest, started =>
    if c.fieldName = "body" then assembleRest src rest started
    else
      (if started ∧ c.fieldName ≠ "parameters" then [' '] else []) ++
        c.content src ++ assembleRest src rest true

/-- The child traversal of `EverythingExceptBody`.  When the node has
children the cursor walks them; when it has none, `GoToFirstChild` fails
and the loop body runs once on the node itself (whose field name at the
cursor root is empty), emitting the node's own text. -/
def signatureChildren (src : List Char) (n : Node) : List Char :=
  match n.children with
  | [] => n.content src
  | cs => assembleRest src cs false

/-- `EverythingExceptBody`: preceding comments (if any, followed by a
newline and widening the range start), then all children except the one
whose field is "body".  The parent link used by `precedingComments` is
passed explicitly. -/
def EverythingExceptBody (doc : Document) (parent : Option Node)
    (node : Node) : Symbol :=
  let rng := GetRange node
  let pc := precedingComments node parent doc.sourceCode
  let rng :=
    if pc.1 ≠ [] then
      { rng with startPoint := pc.2.1.getD rng.startPoint, startByte := pc.2.2 }
    else rng
  let code :=
    (if pc.1 ≠ [] then pc.1 ++ ['\n'] else []) ++
      signatureChildren doc.sourceCode node
  { summary := code, range := rng, node := node }

/-- `NodeToSymbolWithComments`: preceding comments (if any, followed by a
newline and widening the range start), then the node's full text. -/
def NodeToSymbolWithComments (doc : Document) (parent : Option Node)
    (node : Node) : Symbol :=
  let rng := GetRange node
  let pc := precedingComments node parent doc.sourceCode
  let rng :=
    if pc.1 ≠ [] then
      { rng with startPoint := pc.2.1.getD rng.startPoint, startByte := pc.2.2 }
    else rng
  let code :=
    (if pc.1 ≠ [] then pc.1 ++ ['\n'] else []) ++
      node.content doc.sourceCode
  { summary := code, range := rng, node := node }

/-- The node kind named by a single-node structural pattern such as
`"(function_declaration) @dec"`: the text between the parentheses. -/
def patternKind (p : String) : String :=
  String.mk ((p.toList.drop 1).takeWhile (fun c => c ≠ ')'))

mutual
/-- All query matches in the subtree rooted at `n`, whose positional
parent within the traversal is `parent`, as (parent, capture) pairs in
document order.  Models the tree-sitter query engine for a single-node
pattern: every node of the queried kind is matched. -/
def queryMatchesNode (k : String) (parent : Node) (n : Node) :
    List (Node × Node) :=
  match n with
  | .mk kd nm f s e p q cs =>
    (if kd = k then [(parent, .mk kd nm f s e p q cs)] else []) ++
      queryMatchesList k (.mk kd nm f s e p q cs) cs
/-- Matches contributed by a list of sibling subtrees. -/
def queryMatchesList (k : String) (parent : Node) :
    List Node → List (Node × Node)
  | [] => []
  | c :: rest => queryMatchesNode k parent c ++ queryMatchesList k parent rest
end

/-- `QueryCaptures`: compile the pattern (an error is returned to the
caller), execute it, and keep exactly those captures whose captured
node's parent equals the queried root (`cap.Node.Parent().Equal(this.Root)`).
The returned list is the sequence of captures the callback is invoked on.
The root node itself is never kept: its parent is nil, which never equals
the root. -/
def QueryCaptures (doc : Document) (pattern : String) :
    Except String (List Node) :=
  match doc.compileError pattern with
  | some e => .error e
  | none =>
    .ok (((queryMatchesList (patternKind pattern) doc.root
        doc.root.children).filter
          (fun pc => Node.beq pc.1 doc.root)).map (fun pc => pc.2))

/-- `QueryFunctions`: runs the function-declaration pattern and builds a
symbol per capture with `EverythingExceptBody`.  The Go code discards the
error value returned by `QueryCaptures` (the call's result is ignored) and
always returns a nil error, so a compile failure yields an empty list and
no error. -/
def QueryFunctions (doc : Document) : List Symbol × Option String :=
  match QueryCaptures doc "(function_declaration) @dec" with
  | .error _ => ([], none)
  | .ok caps => (caps.map (fun c => EverythingExceptBody doc (some doc.root) c), none)

/-- `QueryMethods`; error handling identical to `QueryFunctions`. -/
def QueryMethods (doc : Document) : List Symbol × Option String :=
  match QueryCaptures doc "(method_declaration) @method" with
  | .error _ => ([], none)
  | .ok caps => (caps.map (fun c => EverythingExceptBody doc (some doc.root) c), none)

/-- `QueryTypeDefinitions`; error handling identical to `QueryFunctions`. -/
def QueryTypeDefinitions (doc : Document) : List Symbol × Option String :=
  match QueryCaptures doc "(type_spec) @type.name" with
  | .error _ => ([], none)
  | .ok caps => (caps.map (fun c => EverythingExceptBody doc (some doc.root) c), none)

/-- `QueryVarDeclarations`; error handling identical to `QueryFunctions`. -/
def QueryVarDeclarations (doc : Document) : List Symbol × Option String :=
  match QueryCaptures doc "(var_declaration) @dec" with
  | .error _ => ([], none)
  | .ok caps => (caps.map (fun c => EverythingExceptBody doc (some doc.root) c), none)

/-- The ordering used by `sort.Slice` in `QuerySymbols` (ascending by
range start byte); `sort.Slice` produces some permutation sorted under
this total preorder, modelled here by insertion sort. -/
def symbolLe (s t : Symbol) : Prop :=
  s.range.startByte ≤ t.range.startByte

instance : DecidableRel symbolLe := fun s t =>
  Nat.decLe s.range.startByte t.range.startByte

instance : IsTotal Symbol symbolLe :=
  ⟨fun s t => Nat.le_total s.range.startByte t.range.startByte⟩

instance : IsTrans Symbol symbolLe :=
  ⟨fun _ _ _ h1 h2 => Nat.le_trans h1 h2⟩

/-- `QuerySymbols`: run the four kind-specific queries, concatenate, check
each returned error, and sort the combined sequence ascending by range
start byte. -/
def QuerySymbols (doc : Document) : Except String (List Symbol) :=
  match QueryMethods doc with
  | (_, some e) => .error e
  | (methods, none) =>
    match QueryFunctions doc with
    | (_, some e) => .error e
    | (funcs, none) =>
      match QueryTypeDefinitions doc with
      | (_, some e) => .error e
      | (typeDefs, none) =>
        match QueryVarDeclarations doc with
        | (_, some e) => .error e
        | (varDecls, none) =>
          .ok ((methods ++ funcs ++ typeDefs ++ varDecls).insertionSort symbolLe)

/-- The grammar handles compiled into the tako command. -/
inductive Language where
  | c | cpp | csharp | golang | java | javascript | php | protobuf
  | python | ruby | rust | scala | typescript
deriving DecidableEq, Repr

/-- A Go runtime panic observed while modelling partial operations. -/
inductive GoPanic where
  | indexOutOfRange
deriving DecidableEq, Repr

/-- The switch body of `GetLanguageFromExtension`, after the leading dot
has been stripped: the static extension-to-grammar table.  An unknown
extension yields `(nil, "")`. -/
def languageSwitch (ext : String) : Option Language × String :=
  if ext = "go" then (some .golang, "go")
  else if ext = "rs" then (some .rust, "rust")
  else if ext = "js" then (some .javascript, "javascript")
  else if ext = "ts" then (some .typescript, "typescript")
  else if ext = "c" ∨ ext = "h" then (some .c, "c")
  else if ext = "cpp" ∨ ext = "cxx" ∨ ext = "cc" ∨ ext = "hpp" ∨
      ext = "hxx" ∨ ext = "hh" then (some .cpp, "cpp")
  else if ext = "java" then (some .java, "java")
  else if ext = "php" then (some .php, "php")
  else if ext = "py" then (some .python, "python")
  else if ext = "rb" then (some .ruby, "ruby")
  else if ext = "cs" then (some .csharp, "csharp")
  else if ext = "scala" then (some .scala, "scala")
  else if ext = "proto" then (some .protobuf, "protobuf")
  else (none, "")

/-- `GetLanguageFromExtension`: the Go code first evaluates `ext[0]`,
which panics with an index-out-of-range error when `ext` is the empty
string; otherwise a leading `'.'` is stripped and the switch is
consulted. -/
def GetLanguageFromExtension (ext : List Char) :
    Except GoPanic (Option Language × String) :=
  match ext with
  | [] => .error .indexOutOfRange
  | c :: rest =>
    .ok (languageSwitch (String.mk (if c = '.' then rest else c :: rest)))

/-- `filepath.Ext`: the suffix of the last path element starting at its
final dot, or empty if the last element has no dot.  Implemented, as in
Go, by scanning backwards to the first separator. -/
def filepathExt (path : List Char) : List Char :=
  extScan path.reverse []
where
  /-- Scan the reversed path; `acc` holds the characters already passed,
  in source order. -/
  extScan : List Char → List Char → List Char
    | [], _ => []
    | c :: rest, acc =>
      if c = '/' then []
      else if c = '.' then c :: acc
      else extScan rest (c :: acc)

/-- The possible outcomes of the language-selection step of `ParseFile`
(file reading is an external effect assumed to succeed here): a panic
from `GetLanguageFromExtension`, the "Unsupported file extension" error
when the table returns a nil language, or a selected grammar. -/
inductive ParseFileOutcome where
  | panicked (p : GoPanic)
  | unsupported (ext : List Char)
  | selected (lang : Language) (name : String)
deriving DecidableEq, Repr

/-- The language-selection step of `ParseFile`: compute the extension with
`filepath.Ext` and consult `GetLanguageFromExtension`; a nil language is
reported as the unsupported-extension error. -/
def ParseFileLanguage (path : List Char) : ParseFileOutcome :=
  match GetLanguageFromExtension (filepathExt path) with
  | .error p => .panicked p
  | .ok (none, _) => .unsupported (filepathExt path)
  | .ok (some l, n) => .selected l n

/-- The non-directory branch of `CodeFileWalker`: when the given path is a
regular file the callback is invoked on it directly, with no extension
check (the code-suffix filter only applies to files discovered while
walking a directory). -/
def codeFileWalkerFileBranch (isDir : Bool) (path : List Char)
    (callback : List Char → ParseFileOutcome) : Option ParseFileOutcome :=
  if ¬ isDir then some (callback path) else none

/-- `unicode.IsSpace` restricted to the ASCII range (the node kinds and
sources in scope are ASCII). -/
def isUnicodeSpace (c : Char) : Bool :=
  c = ' ' ∨ c = '\t' ∨ c = '\n' ∨ c = (Char.ofNat 11) ∨ c = (Char.ofNat 12) ∨
    c = '\r'

/-- `isOnlyWhitespace`: every character of the string is whitespace. -/
def isOnlyWhitespace (s : List Char) : Bool :=
  s.all isUnicodeSpace

/-- The character class of the Go regular expression `\s`:
`[\t\n\f\r ]`. -/
def isRegexSpace (c : Char) : Bool :=
  c = ' ' ∨ c = '\t' ∨ c = '\n' ∨ c = (Char.ofNat 12) ∨ c = '\r'

/-- The scan behind `collapseWhitespace`: the flag records whether the
previous character was part of a whitespace run already replaced. -/
def collapseWhitespaceScan : List Char → Bool → List Char
  | [], _ => []
  | c :: rest, inRun =>
    if isRegexSpace c then
      (if inRun then [] else [' ']) ++ collapseWhitespaceScan rest true
    else c :: collapseWhitespaceScan rest false

/-- `collapseWhitespace`: replace every maximal run of `\s` characters
with a single space (`regexp.MustCompile("\\s+").ReplaceAllString(s, " ")`). -/
def collapseWhitespace (s : List Char) : List Char :=
  collapseWhitespaceScan s false

/-- `tree_padding`. -/
def tree_padding : Nat := 15

/-- One 2-character margin cell of the tree drawing, from the 4-state
enumeration LINE_NONE = 0, LINE_VERTICAL = 1, LINE_CHILD = 2,
LINE_LAST_CHILD = 3 (any other value appends nothing, as in the Go
switch). -/
def cellChars (line : Nat) : List Char :=
  if line = 0 then [' ', ' ']
  else if line = 1 then ['│', ' ']
  else if line = 2 then ['├', ' ']
  else if line = 3 then ['╰', ' ']
  else []

/-- The left margin built from the ancestry cells. -/
def renderCells (cells : List Nat) : List Char :=
  (cells.map cellChars).flatten

/-- Go `len` on a string: the UTF-8 byte length (the margin's box-drawing
characters are multi-byte). -/
def goStrLen (s : List Char) : Nat :=
  (s.map Char.utf8Size).sum

/-- Go byte-slicing `s[:k]` modelled on characters: take whole characters
as long as their UTF-8 size fits in the remaining byte budget (identical
to Go for ASCII content). -/
def takeBytes : Nat → List Char → List Char
  | _, [] => []
  | k, c :: rest =>
    if c.utf8Size ≤ k then c :: takeBytes (k - c.utf8Size) rest else []

/-- The label of a printed node: named nodes print `"<kind> <field>"`
(note the field name is appended even when empty, with its separating
space); unnamed nodes print their kind quoted, unless it is pure
whitespace, in which case the label is empty and no line is printed. -/
def nodeLabel (n : Node) : List Char :=
  if n.named then n.kind.toList ++ ' ' :: n.fieldName.toList
  else if ¬ isOnlyWhitespace n.kind.toList then
    '"' :: n.kind.toList ++ ['"']
  else []

/-- One printed line: margin, label, then (if room remains within the
terminal width, minus the fixed padding) the padding and the node's
whitespace-collapsed source text truncated to the remaining width.  The
Go subtraction is on `int` and the result is used only when positive, so
truncated `Nat` subtraction is equivalent. -/
def renderLine (src : List Char) (termWidth : Nat) (treeStructure : List Char)
    (label : List Char) (n : Node) : List Char :=
  let nodeCode := collapseWhitespace (n.content src)
  let str := treeStructure ++ label
  let remaining := termWidth - (goStrLen str + tree_padding)
  if 0 < remaining then
    str ++ List.replicate tree_padding ' ' ++ takeBytes remaining nodeCode
  else str

/-- Overwrite the last element of the cell list (the Go code assigns
`newChildLines[len(newChildLines)-1]`). -/
def setLast (l : List Nat) (v : Nat) : List Nat :=
  l.set (l.length - 1) v

/-- The pre-loop fixup of the parent's cell: when the extended cell list
has more than one entry, the second-to-last cell transitions
LINE_LAST_CHILD → LINE_NONE and LINE_CHILD → LINE_VERTICAL, so a
completed branch stops drawing a connecting line beneath it. -/
def adjustSecondLast (l : List Nat) : List Nat :=
  if 1 < l.length then
    let v := l.getD (l.length - 2) 0
    if v = 3 then l.set (l.length - 2) 0
    else if v = 2 then l.set (l.length - 2) 1
    else l
  else l

mutual
/-- `PrintParseTree`, returning the sequence of printed lines.  The
traversal stops when the remaining depth budget is zero; the current node
prints one line unless its label is empty; then the cursor moves to the
first child, and the sibling loop advances BEFORE recursing, so the first
child itself is never recursed into — only the second and later children
are.  The Go code mutates the shared `newChildLines` array in place; the
parent rewrites its last cell on every iteration before each recursive
call, so value semantics produces the same printed lines. -/
def printParseTree (src : List Char) (termWidth : Nat) (node : Node)
    (depth depthRemaining : Nat) (childLines : List Nat) : List (List Char) :=
  if depthRemaining = 0 then []
  else
    let treeStructure := if 1 ≤ depth then renderCells childLines else []
    let label := nodeLabel node
    let selfLines :=
      if label ≠ [] then [renderLine src termWidth treeStructure label node]
      else []
    match node with
    | .mk _ _ _ _ _ _ _ cs =>
      match cs with
      | [] => selfLines
      | c0 :: rest =>
        let newChildLines := adjustSecondLast (childLines ++ [1])
        selfLines ++
          printSiblings src termWidth rest 0 (c0 :: rest).length (depth + 1)
            (depthRemaining - 1) newChildLines
/-- The `for cursor.GoToNextSibling()` loop: each later sibling sets the
last margin cell (LINE_LAST_CHILD for the final child, LINE_CHILD
otherwise, via the `children == childCount-2` counter test) and recurses
one level deeper. -/
def printSiblings (src : List Char) (termWidth : Nat) (cs : List Node)
    (childIdx childCount depth depthRemaining : Nat) (newChildLines : List Nat) :
    List (List Char) :=
  match cs with
  | [] => []
  | c :: rest =>
    let cells := setLast newChildLines (if childIdx = childCount - 2 then 3 else 2)
    printParseTree src termWidth c depth depthRemaining cells ++
      printSiblings src termWidth rest (childIdx + 1) childCount depth
        depthRemaining newChildLines
end

/-- `PrintTree` after a successful parse: render the tree from the root
with depth 0, the requested maximum depth, and no ancestry cells.  The
terminal width (a process-wide value in Go) is passed explicitly. -/
def RenderTree (doc : Document) (maxDepth : Nat) (termWidth : Nat) :
    List (List Char) :=
  printParseTree doc.sourceCode termWidth doc.root 0 maxDepth []

/-! ### Concrete example documents

The parse tree of the Go source `"// doc\nfunc F() {}"` (braces written
with escapes below), as produced by the tree-sitter Go grammar: a
source file whose children are a comment and a function declaration; the
function declaration's children are the `func` keyword, the name, the
parameter list (field "parameters") and the block (field "body"). -/

def exSource : List Char := "// doc\nfunc F() \x7b\x7d".toList

def exComment : Node := .mk "comment" true "" 0 6 ⟨0, 0⟩ ⟨0, 6⟩ []

def exFuncKw : Node := .mk "func" false "" 7 11 ⟨1, 0⟩ ⟨1, 4⟩ []

def exName : Node := .mk "identifier" true "name" 12 13 ⟨1, 5⟩ ⟨1, 6⟩ []

def exParams : Node :=
  .mk "parameter_list" true "parameters" 13 15 ⟨1, 6⟩ ⟨1, 8⟩
    [.mk "(" false "" 13 14 ⟨1, 6⟩ ⟨1, 7⟩ [],
     .mk ")" false "" 14 15 ⟨1, 7⟩ ⟨1, 8⟩ []]

def exBody : Node :=
  .mk "block" true "body" 16 18 ⟨1, 9⟩ ⟨1, 11⟩
    [.mk "\x7b" false "" 16 17 ⟨1, 9⟩ ⟨1, 10⟩ [],
     .mk "\x7d" false "" 17 18 ⟨1, 10⟩ ⟨1, 11⟩ []]

def exFunc : Node :=
  .mk "function_declaration" true "" 7 18 ⟨1, 0⟩ ⟨1, 11⟩
    [exFuncKw, exName, exParams, exBody]

def exRoot : Node :=
  .mk "source_file" true "" 0 18 ⟨0, 0⟩ ⟨1, 11⟩ [exComment, exFunc]

def exDoc : Document :=
  { root := exRoot, sourceCode := exSource, languageName := "go",
    compileError := fun _ => none }

/-- The parse tree of `"// doc\n\nfunc F() {}"`: the same shape, with a
blank line between the comment and the function declaration (blank lines
produce no sibling node). -/
def gapSource : List Char := "// doc\n\nfunc F() \x7b\x7d".toList

def gapComment : Node := .mk "comment" true "" 0 6 ⟨0, 0⟩ ⟨0, 6⟩ []

def gapFunc : Node :=
  .mk "function_declaration" true "" 8 19 ⟨2, 0⟩ ⟨2, 11⟩
    [.mk "func" false "" 8 12 ⟨2, 0⟩ ⟨2, 4⟩ [],
     .mk "identifier" true "name" 13 14 ⟨2, 5⟩ ⟨2, 6⟩ [],
     .mk "parameter_list" true "parameters" 14 16 ⟨2, 6⟩ ⟨2, 8⟩ [],
     .mk "block" true "body" 17 19 ⟨2, 9⟩ ⟨2, 11⟩ []]

def gapRoot : Node :=
  .mk "source_file" true "" 0 19 ⟨0, 0⟩ ⟨2, 11⟩ [gapComment, gapFunc]

def gapDoc : Document :=
  { root := gapRoot, sourceCode := gapSource, languageName := "go",
    compileError := fun _ => none }

/-- A two-declaration document for the renderer claims: a root with two
named children. -/
def pairChildA : Node := .mk "a_decl" true "" 0 1 ⟨0, 0⟩ ⟨0, 1⟩ []

def pairChildB : Node := .mk "b_decl" true "" 2 3 ⟨0, 2⟩ ⟨0, 3⟩ []

def pairRoot : Node :=
  .mk "source_file" true "" 0 3 ⟨0, 0⟩ ⟨0, 3⟩ [pairChildA, pairChildB]

def pairDoc : Document :=
  { root := pairRoot, sourceCode := "a b".toList, languageName := "go",
    compileError := fun _ => none }

/-- A document whose grammar rejects every one of the built-in patterns
at compile time, as the python grammar does (it has no
`function_declaration`, `method_declaration`, `type_spec` or
`var_declaration` node types, and `sitter.NewQuery` reports unknown node
types as compile errors). -/
def pyDoc : Document :=
  { root := .mk "module" true "" 0 0 ⟨0, 0⟩ ⟨0, 0⟩ [],
    sourceCode := [], languageName := "python",
    compileError := fun _ => some "invalid node type" }

/-- A document for the comment-attacher claims, for the Go source
`"// a\nvar v\n// b\n// c\nfunc G()"`: a comment, a var declaration,
two adjacent comments, and a function declaration. -/
def runSource : List Char := "// a\nvar v\n// b\n// c\nfunc G()".toList

def runCommentA : Node := .mk "comment" true "" 0 4 ⟨0, 0⟩ ⟨0, 4⟩ []

def runVar : Node := .mk "var_declaration" true "" 5 10 ⟨1, 0⟩ ⟨1, 5⟩ []

def runCommentB : Node := .mk "comment" true "" 11 15 ⟨2, 0⟩ ⟨2, 4⟩ []

def runCommentC : Node := .mk "comment" true "" 16 20 ⟨3, 0⟩ ⟨3, 4⟩ []

def runFunc : Node :=
  .mk "function_declaration" true "" 21 29 ⟨4, 0⟩ ⟨4, 8⟩
    [.mk "func" false "" 21 25 ⟨4, 0⟩ ⟨4, 4⟩ [],
     .mk "identifier" true "name" 26 27 ⟨4, 5⟩ ⟨4, 6⟩ [],
     .mk "parameter_list" true "parameters" 27 29 ⟨4, 6⟩ ⟨4, 8⟩ []]

def runRoot : Node :=
  .mk "source_file" true "" 0 29 ⟨0, 0⟩ ⟨4, 8⟩
    [runCommentA, runVar, runCommentB, runCommentC, runFunc]

def runDoc : Document :=
  { root := runRoot, sourceCode := runSource, languageName := "go",
    compileError := fun _ => none }

/-! ### Characterization helpers for the comment attacher -/

/-- Whether a node is a comment. -/
def isCommentNode (n : Node) : Bool :=
  decide (n.kind = "comment")

/-- The siblings scanned by the comment attacher: the longest prefix whose
members end strictly before the target's start byte. -/
def commentPrefix (t : Nat) (L : List Node) : List Node :=
  L.takeWhile (fun c => decide (c.endByte < t))

/-- Whether every node of a list is a comment. -/
def allComments (L : List Node) : Bool :=
  L.all isCommentNode

/-- The longest all-comment suffix of a sibling list. -/
def maxCommentSuffix : List Node → List Node
  | [] => []
  | c :: rest =>
    if allComments (c :: rest) then c :: rest else maxCommentSuffix rest

/-- The run of comments the attacher keeps for a target starting at `t`:
the longest all-comment suffix of the scanned prefix. -/
def attachedRun (t : Nat) (L : List Node) : List Node :=
  maxCommentSuffix (commentPrefix t L)

/-- The start byte a symbol built from `n` reports, after comment
widening: the first attached comment's start byte when the joined comment
text is non-empty, the node's own start byte otherwise. -/
def widenedStart (src : List Char) (L : List Node) (n : Node) : Nat :=
  if joinNewline ((attachedRun n.startByte L).map
      (fun c => c.content src)) = [] then n.startByte
  else ((attachedRun n.startByte L).headD n).startByte

/-- Well-formedness of a sibling list, as produced by the supported
grammars for the children of a document root: sibling spans are in source
order and strictly separated (top-level declarations are separated by at
least a terminator or newline byte), and no span is inverted. -/
def SiblingsWellFormed (L : List Node) : Prop :=
  L.Pairwise (fun a b => a.endByte < b.startByte) ∧
    ∀ n ∈ L, n.startByte ≤ n.endByte

/-- Adjacency of two byte positions used by the range-slice law: position
`b` starts exactly one byte after `a`, and the byte at `a` is a
newline. -/
def newlineAt (src : List Char) (a b : Nat) : Prop :=
  a + 1 = b ∧ a < src.length ∧ src.getD a ' ' = '\n'

/-! ### Reference definitions written from the claims' wording -/

/-- The separator rule exactly as claim C3 states it: one space between
consecutive emitted fragments, except that no space is inserted
immediately FOLLOWING a fragment whose field name is "parameters" — so
the separator before a fragment is decided by the PREVIOUS emitted
fragment's field name. -/
def claimSeparated (src : List Char) : List Node → Option String → List Char
  | [], _ => []
  | c :: rest, prevField =>
    if c.fieldName = "body" then claimSeparated src rest prevField
    else
      (match prevField with
       | none => []
       | some pf => if pf = "parameters" then [] else [' ']) ++
        c.content src ++ claimSeparated src rest (some c.fieldName)

/-- The non-body immediate children of a declaration node, as (field
name, source text) fragments in source order. -/
def emittedFragments (src : List Char) (cs : List Node) :
    List (String × List Char) :=
  (cs.filter (fun c => ¬ c.fieldName = "body")).map
    (fun c => (c.fieldName, c.content src))

/-- Joining fragments with one space between consecutive fragments,
except that no space immediately precedes a fragment whose field name is
"parameters" (the amended separator rule). -/
def joinFragments : List (String × List Char) → List Char
  | [] => []
  | f :: rest =>
    f.2 ++ (rest.map (fun g =>
      (if g.1 = "parameters" then [] else [' ']) ++ g.2)).flatten

mutual
/-- The number of lines the renderer prints, written from the amended
claim C8: a zero budget prints nothing; otherwise the node prints one
line unless it is an unnamed node whose literal text is pure whitespace,
and every child EXCEPT THE FIRST is rendered with one less remaining
depth — the first child of every node is never rendered. -/
def renderedLineCount (node : Node) (depthRemaining : Nat) : Nat :=
  if depthRemaining = 0 then 0
  else
    (if node.named ∨ ¬ isOnlyWhitespace node.kind.toList then 1 else 0) +
      match node with
      | .mk _ _ _ _ _ _ _ cs =>
        match cs with
        | [] => 0
        | _ :: rest => renderedLineCountList rest (depthRemaining - 1)
/-- Total rendered line count of a list of subtrees. -/
def renderedLineCountList : List Node → Nat → Nat
  | [], _ => 0
  | c :: rest, dr => renderedLineCount c dr + renderedLineCountList rest dr
end

/-! ### Theorems -/

/-- C5: for the Go source `"// doc\nfunc F() {}"`, `QuerySymbols` returns
exactly one Symbol; its summary is `"// doc\nfunc F()"` (body omitted,
comment joined with a newline, name and parameter list contiguous) and
its range start — byte 0 and point (0,0) — is the start of the comment
line, not the `func` keyword (byte 7, row 1). -/
theorem querySymbols_comment_func_example :
    QuerySymbols exDoc =
      .ok [{ summary := "// doc\nfunc F()".toList,
             range := { startPoint := ⟨0, 0⟩, endPoint := ⟨1, 11⟩,
                        startByte := 0, endByte := 18 },
             node := exFunc }] := by
  rfl

/-- C10: `GetLanguageFromExtension` evaluates `ext[0]` before anything
else, so on a path with no extension (`filepath.Ext` returns the empty
string) `ParseFile` panics with an index-out-of-range error instead of
returning the unsupported-extension error; the panic is reachable for a
regular file because the non-directory branch of `CodeFileWalker` invokes
the callback without any extension check. -/
theorem parseFile_noExtension_panics (path : List Char)
    (h : filepathExt path = []) :
    ParseFileLanguage path = .panicked .indexOutOfRange ∧
    (∀ ext, ParseFileLanguage path ≠ .unsupported ext) ∧
    codeFileWalkerFileBranch false path ParseFileLanguage =
      some (.panicked .indexOutOfRange) := by
  have h1 : ParseFileLanguage path = .panicked .indexOutOfRange := by
    unfold ParseFileLanguage
    rw [h]
    rfl
  refine ⟨h1, ?_, ?_⟩
  · intro ext hc
    rw [h1] at hc
    exact absurd hc (by simp)
  · unfold codeFileWalkerFileBranch
    simp [h1]

/-- Witness for C10 at the concrete extensionless path "README". -/
theorem parseFile_noExtension_panics_witness :
    ParseFileLanguage "README".toList = .panicked .indexOutOfRange ∧
    (∀ ext, ParseFileLanguage "README".toList ≠ .unsupported ext) ∧
    codeFileWalkerFileBranch false "README".toList ParseFileLanguage =
      some (.panicked .indexOutOfRange) :=
  parseFile_noExtension_panics "README".toList (by decide)

/-- C4 names a code bug: the kind-specific query helpers discard the
error value returned by `QueryCaptures`, so a pattern compile failure is
swallowed — every helper returns an empty list with a nil error and
`QuerySymbols` returns an empty catalog with no error, instead of
propagating the `QueryCompileError` as the spec states. -/
theorem queryCompileError_swallowed (doc : Document)
    (h : ∀ p, doc.compileError p ≠ none) :
    QueryMethods doc = ([], none) ∧
    QueryFunctions doc = ([], none) ∧
    QueryTypeDefinitions doc = ([], none) ∧
    QueryVarDeclarations doc = ([], none) ∧
    QuerySymbols doc = .ok [] := by
  have hm : QueryMethods doc = ([], none) := by
    unfold QueryMethods QueryCaptures
    cases hP : doc.compileError "(method_declaration) @method" with
    | none => exact absurd hP (h _)
    | some e => rfl
  have hf : QueryFunctions doc = ([], none) := by
    unfold QueryFunctions QueryCaptures
    cases hP : doc.compileError "(function_declaration) @dec" with
    | none => exact absurd hP (h _)
    | some e => rfl
  have ht : QueryTypeDefinitions doc = ([], none) := by
    unfold QueryTypeDefinitions QueryCaptures
    cases hP : doc.compileError "(type_spec) @type.name" with
    | none => exact absurd hP (h _)
    | some e => rfl
  have hv : QueryVarDeclarations doc = ([], none) := by
    unfold QueryVarDeclarations QueryCaptures
    cases hP : doc.compileError "(var_declaration) @dec" with
    | none => exact absurd hP (h _)
    | some e => rfl
  refine ⟨hm, hf, ht, hv, ?_⟩
  unfold QuerySymbols
  rw [hm, hf, ht, hv]
  rfl

/-- Witness for C4 at a document with a grammar (like python's) on which
all built-in patterns fail to compile: the compile errors vanish and
`QuerySymbols` reports success with an empty catalog. -/
theorem queryCompileError_swallowed_witness :
    QueryMethods pyDoc = ([], none) ∧
    QueryFunctions pyDoc = ([], none) ∧
    QueryTypeDefinitions pyDoc = ([], none) ∧
    QueryVarDeclarations pyDoc = ([], none) ∧
    QuerySymbols pyDoc = .ok [] :=
  queryCompileError_swallowed pyDoc (fun p => by simp [pyDoc])

/-- The sibling loop prints nothing once the depth budget is spent. -/
theorem printSiblings_depthRemaining_zero (src : List Char) (tw : Nat) :
    ∀ (cs : List Node) (i cc depth : Nat) (ncl : List Nat),
      printSiblings src tw cs i cc depth 0 ncl = []
  | [], _, _, _, _ => rfl
  | c :: rest, i, cc, depth, ncl => by
    rw [printSiblings, printParseTree]
    simp [printSiblings_depthRemaining_zero src tw rest (i + 1) cc depth ncl]

/-- A named node's label is never empty (it contains the separating
space before the field name). -/
theorem nodeLabel_ne_nil_of_named {n : Node} (h : n.named = true) :
    nodeLabel n ≠ [] := by
  simp [nodeLabel, h]

/-- C9: `RenderTree` with `maxDepth = 0` prints no lines, and with
`maxDepth = 1` prints exactly the root's line, however large the tree is
(the root of a parsed document is a named node). -/
theorem renderTree_depth_zero_and_one (doc : Document) (tw : Nat) :
    RenderTree doc 0 tw = [] ∧
    (doc.root.named = true →
      RenderTree doc 1 tw =
        [renderLine doc.sourceCode tw [] (nodeLabel doc.root) doc.root]) := by
  constructor
  · rw [RenderTree, printParseTree]
    simp
  · intro hn
    unfold RenderTree
    rw [printParseTree]
    simp only [if_neg (by omega : ¬ (1 : Nat) = 0)]
    have hlbl := nodeLabel_ne_nil_of_named hn
    rcases hroot : doc.root with ⟨k, nm, f, s, e, p, q, cs⟩
    rw [hroot] at hlbl
    simp only [if_pos hlbl]
    cases cs with
    | nil => simp [hroot]
    | cons c0 rest =>
      simp [hroot, printSiblings_depthRemaining_zero]

/-- Witness for C9 at the example document. -/
theorem renderTree_depth_zero_and_one_witness :
    RenderTree exDoc 0 80 = [] ∧
    (exDoc.root.named = true →
      RenderTree exDoc 1 80 =
        [renderLine exDoc.sourceCode 80 [] (nodeLabel exDoc.root) exDoc.root]) :=
  renderTree_depth_zero_and_one exDoc 80

/-- A node's label is nonempty exactly when the node is named or its
literal text is not pure whitespace. -/
theorem nodeLabel_ne_nil_iff (n : Node) :
    (nodeLabel n ≠ []) ↔ (n.named = true ∨ ¬ isOnlyWhitespace n.kind.toList) := by
  by_cases hn : n.named = true
  · simp [nodeLabel, hn]
  · by_cases hw : isOnlyWhitespace n.kind.toList
    · simp [nodeLabel, hn, hw]
    · simp [nodeLabel, hn, hw]

mutual
/-- The renderer prints exactly `renderedLineCount` lines: one line per
visited node with a nonempty label, visiting, below every node, every
child except the first. -/
theorem printParseTree_length (src : List Char) (tw : Nat) :
    ∀ (node : Node) (depth dr : Nat) (cl : List Nat),
      (printParseTree src tw node depth dr cl).length =
        renderedLineCount node dr
  | node, depth, dr, cl => by
    rw [printParseTree, renderedLineCount.eq_def]
    by_cases hdr : dr = 0
    · simp [hdr]
    · simp only [if_neg hdr]
      rcases node with ⟨k, nm, f, s, e, p, q, cs⟩
      have hlbl : (if nodeLabel (.mk k nm f s e p q cs) ≠ [] then
          [renderLine src tw (if 1 ≤ depth then renderCells cl else [])
            (nodeLabel (.mk k nm f s e p q cs)) (.mk k nm f s e p q cs)]
          else []).length =
          (if Node.named (.mk k nm f s e p q cs) = true ∨
              ¬ isOnlyWhitespace (Node.kind (.mk k nm f s e p q cs)).toList
            then 1 else 0) := by
        by_cases hl : nodeLabel (.mk k nm f s e p q cs) ≠ []
        · rw [if_pos hl, if_pos ((nodeLabel_ne_nil_iff _).mp hl)]
          rfl
        · rw [if_neg hl,
            if_neg (fun hc => hl ((nodeLabel_ne_nil_iff _).mpr hc))]
          rfl
      cases cs with
      | nil => simpa using hlbl
      | cons c0 rest =>
        simp only [List.length_append, hlbl,
          printSiblings_length src tw rest 0 (c0 :: rest).length (depth + 1)
            (dr - 1) (adjustSecondLast (cl ++ [1]))]
/-- Line count of the sibling loop. -/
theorem printSiblings_length (src : List Char) (tw : Nat) :
    ∀ (cs : List Node) (i cc depth dr : Nat) (ncl : List Nat),
      (printSiblings src tw cs i cc depth dr ncl).length =
        renderedLineCountList cs dr
  | [], _, _, _, _, _ => by
    rw [printSiblings, renderedLineCountList]
    rfl
  | c :: rest, i, cc, depth, dr, ncl => by
    rw [printSiblings, renderedLineCountList]
    simp only [List.length_append,
      printParseTree_length src tw c depth dr
        (setLast ncl (if i = cc - 2 then 3 else 2)),
      printSiblings_length src tw rest (i + 1) cc depth dr ncl]
end

/-- C8 (amended): the tree renderer prints, for every visited node,
one line unless the node is unnamed with pure-whitespace literal text,
and below every visited node it renders every child EXCEPT THE FIRST
(the sibling cursor advances before the first recursive call), with the
depth budget decremented; `renderedLineCount` states exactly this count
from the amended claim, and the renderer's output length always equals
it. -/
theorem renderTree_line_count (doc : Document) (maxDepth tw : Nat) :
    (RenderTree doc maxDepth tw).length = renderedLineCount doc.root maxDepth :=
  printParseTree_length doc.sourceCode tw doc.root 0 maxDepth []

/-- Counterexample to C8 as stated: a document whose root has two named
children renders, with depth budget 2, only two lines (the root and the
SECOND child); the claim, which says every child including the first is
visited and every named visited node prints a line, demands three. -/
theorem renderTree_skips_first_child_cx :
    (RenderTree pairDoc 2 80).length = 2 ∧
    pairDoc.root.children.length = 2 ∧
    pairDoc.root.children.all (fun c => c.named) = true ∧
    (RenderTree pairDoc 2 80).length ≠
      1 + pairDoc.root.children.length := by
  decide

/-- C3 counterexample: on the example function declaration the assembler
emits `"func F() bool"`-style output with no space BEFORE the parameters
fragment and a space after it, whereas the claim's rule (no space
FOLLOWING a parameters fragment) predicts `"func F ()"`. -/
theorem signature_separator_claim_cx :
    signatureChildren exSource exFunc ≠
      claimSeparated exSource exFunc.children none ∧
    signatureChildren exSource exFunc = "func F()".toList ∧
    claimSeparated exSource exFunc.children none = "func F ()".toList := by
  decide

/-- The assembler loop after the first fragment: each further non-body
child contributes its separator (empty before a "parameters" child, one
space otherwise) and its text. -/
theorem assembleRest_true_spec (src : List Char) :
    ∀ cs : List Node,
      assembleRest src cs true =
        ((cs.filter (fun c => ¬ c.fieldName = "body")).map (fun c =>
          (if c.fieldName = "parameters" then [] else [' ']) ++
            c.content src)).flatten
  | [] => rfl
  | c :: rest => by
    rw [assembleRest]
    by_cases hb : c.fieldName = "body"
    · simp [hb, assembleRest_true_spec src rest]
    · by_cases hp : c.fieldName = "parameters"
      · simp [hb, hp, assembleRest_true_spec src rest]
      · simp [hb, hp, assembleRest_true_spec src rest]

/-- The assembler loop equals the amended fragment-joining rule. -/
theorem assembleRest_false_spec (src : List Char) :
    ∀ cs : List Node,
      assembleRest src cs false =
        joinFragments (emittedFragments src cs)
  | [] => rfl
  | c :: rest => by
    rw [assembleRest]
    by_cases hb : c.fieldName = "body"
    · simp only [if_pos hb, assembleRest_false_spec src rest]
      simp [emittedFragments, hb]
    · rw [if_neg hb, assembleRest_true_spec src rest]
      simp [emittedFragments, joinFragments, hb, List.map_map,
        Function.comp]
      rfl

/-- C3 (amended): the summary emitted for a declaration node with
children is the attached comment prefix followed by the non-body
children's texts in source order, with one space between consecutive
fragments except that no space is inserted immediately BEFORE a fragment
whose field name is "parameters". -/
theorem everythingExceptBody_separators (doc : Document)
    (parent : Option Node) (node : Node) (h : node.children ≠ []) :
    (EverythingExceptBody doc parent node).summary =
      (if (precedingComments node parent doc.sourceCode).1 ≠ [] then
        (precedingComments node parent doc.sourceCode).1 ++ ['\n']
      else []) ++
        joinFragments (emittedFragments doc.sourceCode node.children) := by
  unfold EverythingExceptBody
  simp only []
  congr 1
  unfold signatureChildren
  cases hc : node.children with
  | nil => exact absurd hc h
  | cons c0 rest => exact assembleRest_false_spec doc.sourceCode (c0 :: rest)

/-- Witness for the amended C3 at the example declaration. -/
theorem everythingExceptBody_separators_witness :
    (EverythingExceptBody exDoc (some exRoot) exFunc).summary =
      (if (precedingComments exFunc (some exRoot) exDoc.sourceCode).1 ≠ [] then
        (precedingComments exFunc (some exRoot) exDoc.sourceCode).1 ++ ['\n']
      else []) ++
        joinFragments (emittedFragments exDoc.sourceCode exFunc.children) :=
  everythingExceptBody_separators exDoc (some exRoot) exFunc (by decide)

/-! ### The comment attacher's run characterization -/

theorem maxCommentSuffix_eq_self {L : List Node}
    (h : allComments L = true) : maxCommentSuffix L = L := by
  cases L with
  | nil => rfl
  | cons c rest => rw [maxCommentSuffix, if_pos h]

theorem maxCommentSuffix_cons_of_not {c : Node} {X : List Node}
    (h : allComments (c :: X) = false) :
    maxCommentSuffix (c :: X) = maxCommentSuffix X := by
  rw [maxCommentSuffix, if_neg (by simp [h])]

theorem maxCommentSuffix_suffix : ∀ L : List Node, maxCommentSuffix L <:+ L
  | [] => List.suffix_refl []
  | c :: rest => by
    rw [maxCommentSuffix]
    by_cases h : allComments (c :: rest) = true
    · rw [if_pos h]
    · rw [if_neg h]
      exact (maxCommentSuffix_suffix rest).trans (List.suffix_cons c rest)

theorem maxCommentSuffix_allComments :
    ∀ L : List Node, allComments (maxCommentSuffix L) = true
  | [] => rfl
  | c :: rest => by
    rw [maxCommentSuffix]
    by_cases h : allComments (c :: rest) = true
    · rw [if_pos h]
      exact h
    · rw [if_neg h]
      exact maxCommentSuffix_allComments rest

theorem maxCommentSuffix_maximal :
    ∀ {L ys : List Node}, ys <:+ L → allComments ys = true →
      ys <:+ maxCommentSuffix L := by
  intro L
  induction L with
  | nil =>
    intro ys hs _
    simpa [maxCommentSuffix] using hs
  | cons c rest ih =>
    intro ys hs hc
    rcases List.suffix_cons_iff.mp hs with heq | hsuf
    · subst heq
      rw [maxCommentSuffix_eq_self hc]
    · rw [maxCommentSuffix]
      by_cases h : allComments (c :: rest) = true
      · rw [if_pos h]
        exact hsuf.trans (List.suffix_cons c rest)
      · rw [if_neg h]
        exact ih hsuf hc

theorem allComments_false_of_mem {L : List Node} {b : Node}
    (hb : b ∈ L) (hk : b.kind ≠ "comment") : allComments L = false := by
  by_contra h
  have := List.all_eq_true.mp (eq_true_of_ne_false h) b hb
  exact hk (by simpa [isCommentNode] using this)

theorem maxCommentSuffix_append_break {b : Node} (hk : b.kind ≠ "comment") :
    ∀ (xs ys : List Node),
      maxCommentSuffix (xs ++ b :: ys) = maxCommentSuffix ys
  | [], ys => by
    rw [List.nil_append,
      maxCommentSuffix_cons_of_not
        (allComments_false_of_mem (List.mem_cons_self b ys) hk)]
  | x :: xs, ys => by
    rw [List.cons_append,
      maxCommentSuffix_cons_of_not
        (allComments_false_of_mem
          (by
            refine List.mem_cons_of_mem x ?_
            exact List.mem_append_right xs (List.mem_cons_self b ys)) hk),
      maxCommentSuffix_append_break hk xs ys]

theorem takeWhile_middle_eq {α : Type} (p : α → Bool) {y : α} (Y : List α)
    (hy : p y = false) :
    ∀ X : List α, (∀ x ∈ X, p x = true) →
      (X ++ y :: Y).takeWhile p = X
  | [], _ => by simp [List.takeWhile_cons, hy]
  | x :: X, hX => by
    rw [List.cons_append, List.takeWhile_cons,
      if_pos (hX x (List.mem_cons_self x X)),
      takeWhile_middle_eq p Y hy X (fun a ha => hX a (List.mem_cons_of_mem x ha))]

/-- The accumulated comment texts of the scan: if the scanned prefix is
all comments the incoming accumulator survives and the whole prefix is
appended; otherwise the result is exactly the longest all-comment suffix
of the scanned prefix. -/
theorem precedingCommentsLoop_comments (src : List Char) (t : Nat) :
    ∀ (L : List Node) (comments : List (List Char)) (sp : Option Point)
      (sb : Nat),
      (precedingCommentsLoop src t L comments sp sb).1 =
        if allComments (commentPrefix t L) = true then
          comments ++ (commentPrefix t L).map (fun c => c.content src)
        else (attachedRun t L).map (fun c => c.content src)
  | [], comments, sp, sb => by
    simp [precedingCommentsLoop, commentPrefix, allComments]
  | c :: rest, comments, sp, sb => by
    rw [precedingCommentsLoop.eq_def]
    simp only []
    by_cases hend : t ≤ c.endByte
    · rw [if_pos hend]
      have hcp : commentPrefix t (c :: rest) = [] := by
        simp [commentPrefix, List.takeWhile_cons]
        omega
      simp [hcp, allComments]
    · rw [if_neg hend]
      have hcp : commentPrefix t (c :: rest) = c :: commentPrefix t rest := by
        simp only [commentPrefix, List.takeWhile_cons]
        rw [if_pos (by simp; omega)]
      by_cases hcom : c.kind = "comment"
      · rw [if_pos hcom]
        have step : ∀ sp' sb',
            (precedingCommentsLoop src t rest
              (comments ++ [c.content src]) sp' sb').1 =
            if allComments (commentPrefix t (c :: rest)) = true then
              comments ++ (commentPrefix t (c :: rest)).map
                (fun c => c.content src)
            else (attachedRun t (c :: rest)).map (fun c => c.content src) := by
          intro sp' sb'
          rw [precedingCommentsLoop_comments src t rest
            (comments ++ [c.content src]) sp' sb']
          by_cases hall : allComments (commentPrefix t rest) = true
          · have hall2 : allComments (commentPrefix t (c :: rest)) = true := by
              rw [hcp]
              simp only [allComments, List.all_cons, Bool.and_eq_true]
              exact ⟨by simp [isCommentNode, hcom], by
                simpa [allComments] using hall⟩
            rw [if_pos hall, if_pos hall2, hcp]
            simp
          · have hall2 : allComments (c :: commentPrefix t rest) = false := by
              simp only [allComments, List.all_cons, Bool.and_eq_false_iff]
              right
              simpa [allComments] using hall
            have houter :
                ¬ allComments (commentPrefix t (c :: rest)) = true := by
              rw [hcp]
              simp [hall2]
            rw [if_neg hall, if_neg houter]
            unfold attachedRun
            rw [hcp, maxCommentSuffix_cons_of_not hall2]
        cases sp with
        | none => exact step (some c.startPoint) c.startByte
        | some p => exact step (some p) sb
      · rw [if_neg hcom]
        rw [precedingCommentsLoop_comments src t rest [] none sb]
        have hall2 : allComments (c :: commentPrefix t rest) = false :=
          allComments_false_of_mem (List.mem_cons_self c _) hcom
        have houter : ¬ allComments (commentPrefix t (c :: rest)) = true := by
          rw [hcp]
          simp [hall2]
        rw [if_neg houter]
        unfold attachedRun
        rw [hcp, maxCommentSuffix_cons_of_not hall2]
        by_cases hall : allComments (commentPrefix t rest) = true
        · rw [if_pos hall, List.nil_append, maxCommentSuffix_eq_self hall]
        · rw [if_neg hall]

/-- While the scanned siblings are all comments, an already-recorded
start position survives the scan. -/
theorem precedingCommentsLoop_keep (src : List Char) (t : Nat) :
    ∀ (L : List Node) (comments : List (List Char)) (p : Point) (sb : Nat),
      allComments (commentPrefix t L) = true →
      (precedingCommentsLoop src t L comments (some p) sb).2 = (some p, sb)
  | [], _, _, _, _ => rfl
  | c :: rest, comments, p, sb, hall => by
    rw [precedingCommentsLoop]
    by_cases hend : t ≤ c.endByte
    · rw [if_pos hend]
    · rw [if_neg hend]
      have hcp : commentPrefix t (c :: rest) = c :: commentPrefix t rest := by
        simp only [commentPrefix, List.takeWhile_cons]
        rw [if_pos (by simp; omega)]
      rw [hcp] at hall
      simp only [allComments, List.all_cons, Bool.and_eq_true] at hall
      rw [if_pos (by simpa [isCommentNode] using hall.1)]
      exact precedingCommentsLoop_keep src t rest
        (comments ++ [c.content src]) p sb (by simpa [allComments] using hall.2)

/-- When the attached run is non-empty (and the incoming start position,
if any, does not belong to a still-uninterrupted all-comment prefix), the
scan reports the run's first member's start point and start byte. -/
theorem precedingCommentsLoop_start (src : List Char) (t : Nat) :
    ∀ (L : List Node) (comments : List (List Char)) (sp : Option Point)
      (sb : Nat) (r0 : Node) (rs : List Node),
      attachedRun t L = r0 :: rs →
      (sp = none ∨ allComments (commentPrefix t L) = false) →
      (precedingCommentsLoop src t L comments sp sb).2 =
        (some r0.startPoint, r0.startByte)
  | [], _, _, _, r0, rs, hrun, _ => by
    simp [attachedRun, commentPrefix, maxCommentSuffix] at hrun
  | c :: rest, comments, sp, sb, r0, rs, hrun, hside => by
    rw [precedingCommentsLoop.eq_def]
    simp only []
    by_cases hend : t ≤ c.endByte
    · exfalso
      have hcp : commentPrefix t (c :: rest) = [] := by
        simp [commentPrefix, List.takeWhile_cons]
        omega
      rw [attachedRun, hcp] at hrun
      simp [maxCommentSuffix] at hrun
    · rw [if_neg hend]
      have hcp : commentPrefix t (c :: rest) = c :: commentPrefix t rest := by
        simp only [commentPrefix, List.takeWhile_cons]
        rw [if_pos (by simp; omega)]
      by_cases hcom : c.kind = "comment"
      · rw [if_pos hcom]
        by_cases hall : allComments (commentPrefix t (c :: rest)) = true
        · -- the whole scanned prefix is all comments: the run is the prefix
          have hr : attachedRun t (c :: rest) = c :: commentPrefix t rest := by
            rw [attachedRun, hcp, maxCommentSuffix_eq_self (hcp ▸ hall)]
          have hc0 : r0 = c := by
            rw [hrun] at hr
            exact (List.cons.injEq .. ▸ hr).1
          have hrest_all : allComments (commentPrefix t rest) = true := by
            rw [hcp] at hall
            simp only [allComments, List.all_cons, Bool.and_eq_true] at hall
            simpa [allComments] using hall.2
          rcases hside with hnone | hfalse
          · subst hnone
            rw [hc0]
            exact precedingCommentsLoop_keep src t rest
              (comments ++ [c.content src]) c.startPoint c.startByte hrest_all
          · exact absurd hall (by simp [hfalse])
        · -- the prefix is interrupted: the run lives inside the tail
          have hall2 : allComments (commentPrefix t (c :: rest)) = false := by
            simpa using hall
          have hrest_not : allComments (commentPrefix t rest) = false := by
            rw [hcp] at hall2
            simp only [allComments, List.all_cons, Bool.and_eq_false_iff]
              at hall2
            rcases hall2 with h1 | h2
            · exact absurd (by simp [isCommentNode, hcom] :
                isCommentNode c = true) (by simp [h1])
            · simpa [allComments] using h2
          have hrun' : attachedRun t rest = r0 :: rs := by
            rw [attachedRun, hcp,
              maxCommentSuffix_cons_of_not (hcp ▸ hall2)] at hrun
            exact hrun
          have step : ∀ sp' sb',
              (precedingCommentsLoop src t rest
                (comments ++ [c.content src]) (some sp') sb').2 =
              (some r0.startPoint, r0.startByte) :=
            fun sp' sb' => precedingCommentsLoop_start src t rest
              (comments ++ [c.content src]) (some sp') sb' r0 rs hrun'
              (Or.inr hrest_not)
          cases sp with
          | none => exact step c.startPoint c.startByte
          | some p => exact step p sb
      · rw [if_neg hcom]
        have hall2 : allComments (commentPrefix t (c :: rest)) = false :=
          allComments_false_of_mem
            (by rw [hcp]; exact List.mem_cons_self c _) hcom
        have hrun' : attachedRun t rest = r0 :: rs := by
          rw [attachedRun, hcp,
            maxCommentSuffix_cons_of_not (hcp ▸ hall2)] at hrun
          exact hrun
        exact precedingCommentsLoop_start src t rest [] none sb r0 rs hrun'
          (Or.inl rfl)

/-- The attached text reported by `precedingComments` is the newline-join
of the attached run's texts. -/
theorem precedingComments_text (node parent : Node) (src : List Char) :
    (precedingComments node (some parent) src).1 =
      joinNewline ((attachedRun node.startByte parent.children).map
        (fun c => c.content src)) := by
  unfold precedingComments
  simp only []
  rw [precedingCommentsLoop_comments src node.startByte parent.children []
    none 0]
  by_cases hall : allComments (commentPrefix node.startByte parent.children) =
      true
  · rw [if_pos hall, attachedRun, maxCommentSuffix_eq_self hall,
      List.nil_append]
  · rw [if_neg hall]

/-- When the attached run is non-empty, `precedingComments` reports the
run's first member's start point and start byte. -/
theorem precedingComments_startInfo (node parent : Node) (src : List Char)
    (r0 : Node) (rs : List Node)
    (hrun : attachedRun node.startByte parent.children = r0 :: rs) :
    (precedingComments node (some parent) src).2 =
      (some r0.startPoint, r0.startByte) := by
  unfold precedingComments
  simp only []
  rw [precedingCommentsLoop_start src node.startByte parent.children []
    none 0 r0 rs hrun (Or.inl rfl)]

/-- The scanned prefix for a target node equals exactly the siblings
preceding it, when they all end strictly before its start. -/
theorem commentPrefix_eq_pre {node : Node} {pre post : List Node}
    (hpre : ∀ c ∈ pre, c.endByte < node.startByte)
    (hnode : node.startByte ≤ node.endByte) :
    commentPrefix node.startByte (pre ++ node :: post) = pre :=
  takeWhile_middle_eq _ post (by simp; omega) pre
    (fun x hx => by simp [hpre x hx])

/-- C6: `precedingComments` attaches exactly the maximal run of comment
siblings that ends strictly before the target's start byte with no
non-comment sibling between the run and the target — in full, in source
order, joined by newlines; a non-comment sibling resets the running list,
so any comment separated from the target by an intervening non-comment
sibling is never attached. -/
theorem precedingComments_attaches_maximal_run
    (src : List Char) (parent node : Node) (pre post : List Node)
    (hsplit : parent.children = pre ++ node :: post)
    (hpre : ∀ c ∈ pre, c.endByte < node.startByte)
    (hnode : node.startByte ≤ node.endByte) :
    (precedingComments node (some parent) src).1 =
      joinNewline ((maxCommentSuffix pre).map (fun c => c.content src)) ∧
    (∀ c ∈ maxCommentSuffix pre, c.kind = "comment") ∧
    maxCommentSuffix pre <:+ pre ∧
    (∀ ys, ys <:+ pre → (∀ c ∈ ys, c.kind = "comment") →
      ys <:+ maxCommentSuffix pre) ∧
    (∀ xs b ys, pre = xs ++ b :: ys → b.kind ≠ "comment" →
      maxCommentSuffix pre = maxCommentSuffix ys) := by
  have hcp : commentPrefix node.startByte parent.children = pre := by
    rw [hsplit]
    exact commentPrefix_eq_pre hpre hnode
  refine ⟨?_, ?_, maxCommentSuffix_suffix pre, ?_, ?_⟩
  · rw [precedingComments_text, attachedRun, hcp]
  · intro c hc
    have := List.all_eq_true.mp (maxCommentSuffix_allComments pre) c hc
    simpa [isCommentNode] using this
  · intro ys hs hc
    refine maxCommentSuffix_maximal hs ?_
    simp only [allComments, List.all_eq_true]
    intro x hx
    simp [isCommentNode, hc x hx]
  · intro xs b ys hpre_eq hb
    rw [hpre_eq, maxCommentSuffix_append_break hb]

/-- Witness for C6 at a document with a comment, a var declaration, two
adjacent comments, and a function declaration: exactly the two adjacent
comments are attached; the comment before the var declaration is not. -/
theorem precedingComments_attaches_maximal_run_witness :
    (precedingComments runFunc (some runRoot) runSource).1 =
      joinNewline ((maxCommentSuffix
        [runCommentA, runVar, runCommentB, runCommentC]).map
          (fun c => c.content runSource)) ∧
    (∀ c ∈ maxCommentSuffix [runCommentA, runVar, runCommentB, runCommentC],
      c.kind = "comment") ∧
    maxCommentSuffix [runCommentA, runVar, runCommentB, runCommentC] <:+
      [runCommentA, runVar, runCommentB, runCommentC] ∧
    (∀ ys, ys <:+ [runCommentA, runVar, runCommentB, runCommentC] →
      (∀ c ∈ ys, c.kind = "comment") →
      ys <:+ maxCommentSuffix [runCommentA, runVar, runCommentB, runCommentC]) ∧
    (∀ xs b ys,
      [runCommentA, runVar, runCommentB, runCommentC] = xs ++ b :: ys →
      b.kind ≠ "comment" →
      maxCommentSuffix [runCommentA, runVar, runCommentB, runCommentC] =
        maxCommentSuffix ys) :=
  precedingComments_attaches_maximal_run runSource runRoot runFunc
    [runCommentA, runVar, runCommentB, runCommentC] [] (by decide)
    (by decide) (by decide)

/-! ### The range-slice law -/

theorem sliceBytes_append (src : List Char) {a b c : Nat}
    (h1 : a ≤ b) (h2 : b ≤ c) (h3 : b ≤ src.length) :
    sliceBytes src a c = sliceBytes src a b ++ sliceBytes src b c := by
  unfold sliceBytes
  have htake : src.take c = src.take b ++ (src.drop b).take (c - b) := by
    rw [← List.take_add]
    congr 1
    omega
  rw [htake,
    List.drop_append_of_le_length (by rw [List.length_take]; omega),
    List.drop_append_of_le_length (by rw [List.length_take]; omega)]
  have hnil : (src.take b).drop b = [] := by
    apply List.drop_eq_nil_of_le
    rw [List.length_take]
    omega
  rw [hnil, List.nil_append]

theorem sliceBytes_singleton (src : List Char) {a : Nat}
    (h : a < src.length) :
    sliceBytes src a (a + 1) = [src.getD a ' '] := by
  unfold sliceBytes
  rw [List.take_succ,
    List.drop_append_of_le_length (by rw [List.length_take]; omega)]
  have hnil : (src.take a).drop a = [] := by
    apply List.drop_eq_nil_of_le
    rw [List.length_take]
    omega
  rw [hnil, List.nil_append, List.getElem?_eq_getElem h]
  simp [List.getD, List.getElem?_eq_getElem h]

theorem sliceBytes_ne_nil (src : List Char) {a b : Nat}
    (hab : a < b) (ha : a < src.length) : sliceBytes src a b ≠ [] := by
  unfold sliceBytes
  intro hc
  have := congrArg List.length hc
  rw [List.length_drop, List.length_take] at this
  simp at this
  omega

theorem joinNewline_cons_cons (x y : List Char) (t : List (List Char)) :
    joinNewline (x :: y :: t) = x ++ '\n' :: joinNewline (y :: t) := by
  simp [joinNewline, List.intercalate, List.intersperse]

theorem joinNewline_singleton (x : List Char) : joinNewline [x] = x := by
  simp [joinNewline, List.intercalate]

instance (src : List Char) (a b : Nat) : Decidable (newlineAt src a b) :=
  inferInstanceAs
    (Decidable (a + 1 = b ∧ a < src.length ∧ src.getD a ' ' = '\n'))

instance (src : List Char) :
    DecidableRel (fun a b : Node => newlineAt src a.endByte b.startByte) :=
  fun _ _ => inferInstance

/-- Along a newline-separated chain ending at the target, every run
member starts strictly before the target does. -/
theorem chain_start_lt (src : List Char) (node : Node) :
    ∀ run : List Node,
      List.Chain' (fun a b => newlineAt src a.endByte b.startByte)
        (run ++ [node]) →
      (∀ c ∈ run, c.startByte < c.endByte) →
      ∀ c ∈ run, c.startByte < node.startByte
  | [], _, _ => by intro c hc; simp at hc
  | r :: rest, hchain, hpos => by
    intro c hc
    rw [List.cons_append, List.chain'_cons'] at hchain
    rcases List.mem_cons.mp hc with hc | hc
    · subst hc
      cases rest with
      | nil =>
        have := hchain.1 node rfl
        have hpos0 := hpos c (by simp)
        unfold newlineAt at this
        omega
      | cons c2 rest2 =>
        have hlink := hchain.1 c2 rfl
        have hc2 := chain_start_lt src node (c2 :: rest2) hchain.2
          (fun x hx => hpos x (List.mem_cons_of_mem _ hx)) c2 (by simp)
        have hpos0 := hpos c (by simp)
        unfold newlineAt at hlink
        omega
    · exact chain_start_lt src node rest hchain.2
        (fun x hx => hpos x (List.mem_cons_of_mem _ hx)) c hc

/-- Slicing from the run's first byte to the declaration's end recovers
the newline-joined run texts, one newline, then the declaration's own
slice, when every adjacent pair is separated by exactly one newline
byte. -/
theorem slice_run (src : List Char) (node : Node)
    (hnode : node.startByte ≤ node.endByte)
    (hlen : node.endByte ≤ src.length) :
    ∀ (rs : List Node) (r0 : Node),
      List.Chain' (fun a b => newlineAt src a.endByte b.startByte)
        ((r0 :: rs) ++ [node]) →
      (∀ c ∈ r0 :: rs, c.startByte < c.endByte) →
      sliceBytes src r0.startByte node.endByte =
        joinNewline ((r0 :: rs).map (fun c => c.content src)) ++
          '\n' :: sliceBytes src node.startByte node.endByte
  | [], r0, hchain, hpos => by
    rw [List.cons_append, List.nil_append, List.chain'_cons'] at hchain
    have hsep := hchain.1 node rfl
    obtain ⟨heq, hlt, hnl⟩ := hsep
    have hpos0 := hpos r0 (by simp)
    rw [@sliceBytes_append src r0.startByte r0.endByte node.endByte
        (le_of_lt hpos0) (by omega) (by omega),
      @sliceBytes_append src r0.endByte (r0.endByte + 1) node.endByte
        (by omega) (by omega) (by omega),
      sliceBytes_singleton src hlt, hnl, heq]
    rw [List.map_cons, List.map_nil, joinNewline_singleton]
    simp [Node.content]
  | c2 :: rs', r0, hchain, hpos => by
    rw [List.cons_append, List.chain'_cons'] at hchain
    have hsep := hchain.1 c2 rfl
    obtain ⟨heq, hlt, hnl⟩ := hsep
    have hpos0 := hpos r0 (by simp)
    have hc2lt : c2.startByte < node.startByte :=
      chain_start_lt src node (c2 :: rs') hchain.2
        (fun x hx => hpos x (List.mem_cons_of_mem r0 hx)) c2 (by simp)
    have ih := slice_run src node hnode hlen rs' c2 hchain.2
      (fun x hx => hpos x (List.mem_cons_of_mem r0 hx))
    have hc2e : c2.startByte < c2.endByte := hpos c2 (by simp)
    rw [@sliceBytes_append src r0.startByte r0.endByte node.endByte
        (le_of_lt hpos0) (by omega) (by omega),
      @sliceBytes_append src r0.endByte (r0.endByte + 1) node.endByte
        (by omega) (by omega) (by omega),
      sliceBytes_singleton src hlt, hnl, heq, ih]
    simp only [List.map_cons]
    rw [joinNewline_cons_cons]
    simp [Node.content]

/-- C7 (amended): for a declaration whose attached comment run is
non-empty, with each adjacent pair (comment to comment, and last comment
to declaration) separated in the source by exactly one newline byte and
each comment non-empty, slicing the source from the widened range start
to the range end yields exactly the attached comment text, one newline,
then the declaration's own source text. -/
theorem nodeToSymbol_slice_roundTrip (doc : Document) (node : Node)
    (pre post : List Node)
    (hsplit : doc.root.children = pre ++ node :: post)
    (hpre : ∀ c ∈ pre, c.endByte < node.startByte)
    (hnode : node.startByte ≤ node.endByte)
    (hlen : node.endByte ≤ doc.sourceCode.length)
    (r0 : Node) (rs : List Node)
    (hrun : maxCommentSuffix pre = r0 :: rs)
    (hpos : ∀ c ∈ r0 :: rs, c.startByte < c.endByte)
    (hchain : List.Chain'
      (fun a b => newlineAt doc.sourceCode a.endByte b.startByte)
      ((r0 :: rs) ++ [node])) :
    (precedingComments node (some doc.root) doc.sourceCode).1 ≠ [] ∧
    (NodeToSymbolWithComments doc (some doc.root) node).range.startByte =
      r0.startByte ∧
    (NodeToSymbolWithComments doc (some doc.root) node).range.endByte =
      node.endByte ∧
    sliceBytes doc.sourceCode
        (NodeToSymbolWithComments doc (some doc.root) node).range.startByte
        (NodeToSymbolWithComments doc (some doc.root) node).range.endByte =
      (precedingComments node (some doc.root) doc.sourceCode).1 ++
        '\n' :: node.content doc.sourceCode := by
  have hcp : commentPrefix node.startByte doc.root.children = pre := by
    rw [hsplit]
    exact commentPrefix_eq_pre hpre hnode
  have hattached : attachedRun node.startByte doc.root.children = r0 :: rs := by
    rw [attachedRun, hcp, hrun]
  have htext := precedingComments_text node doc.root doc.sourceCode
  rw [hattached] at htext
  have hr0len : r0.endByte ≤ doc.sourceCode.length := by
    rcases rs with _ | ⟨c2, rs'⟩
    · have := (List.chain'_cons'.mp hchain).1 node rfl
      unfold newlineAt at this
      omega
    · have := (List.chain'_cons'.mp hchain).1 c2 rfl
      unfold newlineAt at this
      omega
  have hc0 : r0.content doc.sourceCode ≠ [] := by
    apply sliceBytes_ne_nil doc.sourceCode (hpos r0 (by simp))
    have := hpos r0 (by simp)
    omega
  have hne : (precedingComments node (some doc.root) doc.sourceCode).1 ≠ [] := by
    rw [htext]
    cases rs with
    | nil =>
      rw [List.map_cons, List.map_nil, joinNewline_singleton]
      exact hc0
    | cons c2 rs' =>
      rw [List.map_cons, List.map_cons, joinNewline_cons_cons]
      exact fun hc => hc0 (List.append_eq_nil.mp hc).1
  have hstart := precedingComments_startInfo node doc.root doc.sourceCode
    r0 rs hattached
  have hsb :
      (NodeToSymbolWithComments doc (some doc.root) node).range.startByte =
        r0.startByte := by
    unfold NodeToSymbolWithComments
    simp only [if_pos hne]
    rw [hstart]
  have heb :
      (NodeToSymbolWithComments doc (some doc.root) node).range.endByte =
        node.endByte := by
    unfold NodeToSymbolWithComments
    by_cases h : (precedingComments node (some doc.root) doc.sourceCode).1 ≠ []
    · simp only [if_pos h]
      rfl
    · simp only [if_neg h]
      rfl
  refine ⟨hne, hsb, heb, ?_⟩
  rw [hsb, heb, htext]
  exact slice_run doc.sourceCode node hnode hlen rs r0 hchain hpos

/-- Counterexample to C7 as stated: with a blank line between comment and
declaration (`"// doc\n\nfunc F() {}"`), the attachment is non-empty and
the slice from the widened start to the range end does NOT equal the
attached text followed by one newline and the declaration text — two
newline bytes intervene. -/
theorem slice_roundTrip_cx :
    (precedingComments gapFunc (some gapRoot) gapSource).1 =
      "// doc".toList ∧
    (precedingComments gapFunc (some gapRoot) gapSource).1 ≠ [] ∧
    (NodeToSymbolWithComments gapDoc (some gapRoot) gapFunc).range.startByte
      = 0 ∧
    (NodeToSymbolWithComments gapDoc (some gapRoot) gapFunc).range.endByte
      = 19 ∧
    sliceBytes gapSource 0 19 ≠
      (precedingComments gapFunc (some gapRoot) gapSource).1 ++
        '\n' :: gapFunc.content gapSource := by
  decide

/-- Witness for the amended C7 at the example document (one comment, one
newline, then the declaration). -/
theorem nodeToSymbol_slice_roundTrip_witness :
    (precedingComments exFunc (some exDoc.root) exDoc.sourceCode).1 ≠ [] ∧
    (NodeToSymbolWithComments exDoc (some exDoc.root) exFunc).range.startByte =
      exComment.startByte ∧
    (NodeToSymbolWithComments exDoc (some exDoc.root) exFunc).range.endByte =
      exFunc.endByte ∧
    sliceBytes exDoc.sourceCode
        (NodeToSymbolWithComments exDoc (some exDoc.root) exFunc).range.startByte
        (NodeToSymbolWithComments exDoc (some exDoc.root) exFunc).range.endByte =
      (precedingComments exFunc (some exDoc.root) exDoc.sourceCode).1 ++
        '\n' :: exFunc.content exDoc.sourceCode :=
  nodeToSymbol_slice_roundTrip exDoc exFunc [exComment] [] (by decide)
    (by decide) (by decide) (by decide) exComment [] (by decide) (by decide)
    (by
      simp only [List.cons_append, List.nil_append]
      rw [List.chain'_pair]
      decide)

/-! ### The top-level capture filter -/

/-- The match list of a node: its own capture (if its kind matches) paired
with its positional parent, then the matches of its subtrees. -/
theorem queryMatchesNode_eq (k : String) (q n : Node) :
    queryMatchesNode k q n =
      (if n.kind = k then [(q, n)] else []) ++
        queryMatchesList k n n.children := by
  rcases n with ⟨kd, nm, f, s, e, sp, ep, cs⟩
  rw [queryMatchesNode]
  rfl

mutual
/-- Every match produced inside the subtree of `n` carries, as its
positional parent, either the passed parent `q` or a node of that
subtree (hence one of size at most the size of `n`). -/
theorem qmNode_parent : ∀ (k : String) (q n : Node) (pc : Node × Node),
    pc ∈ queryMatchesNode k q n → pc.1 = q ∨ sizeOf pc.1 ≤ sizeOf n
  | k, q, .mk kd nm f s e sp ep cs, pc, hmem => by
    rw [queryMatchesNode] at hmem
    rcases List.mem_append.mp hmem with h | h
    · left
      by_cases hk : kd = k
      · rw [if_pos hk] at h
        rw [List.mem_singleton.mp h]
      · rw [if_neg hk] at h
        simp at h
    · right
      rcases qmList_parent k (.mk kd nm f s e sp ep cs) cs pc h with
        h1 | ⟨c, hc, hle⟩
      · rw [h1]
      · have h2 := List.sizeOf_lt_of_mem hc
        have h3 : sizeOf cs < sizeOf (Node.mk kd nm f s e sp ep cs) := by
          simp only [Node.mk.sizeOf_spec]
          omega
        omega
/-- Every match produced by a list of subtrees carries, as its positional
parent, either the passed parent or a node inside one of the subtrees. -/
theorem qmList_parent : ∀ (k : String) (q : Node) (cs : List Node)
    (pc : Node × Node),
    pc ∈ queryMatchesList k q cs →
      pc.1 = q ∨ ∃ c ∈ cs, sizeOf pc.1 ≤ sizeOf c
  | k, q, [], pc, hmem => by
    rw [queryMatchesList] at hmem
    simp at hmem
  | k, q, c :: rest, pc, hmem => by
    rw [queryMatchesList] at hmem
    rcases List.mem_append.mp hmem with h | h
    · rcases qmNode_parent k q c pc h with h1 | h2
      · exact Or.inl h1
      · exact Or.inr ⟨c, by simp, h2⟩
    · rcases qmList_parent k q rest pc h with h1 | ⟨c2, hc2, hle⟩
      · exact Or.inl h1
      · exact Or.inr ⟨c2, List.mem_cons_of_mem c hc2, hle⟩
end

/-- A member of a node's child list is strictly smaller than the node. -/
theorem sizeOf_mem_children_lt {root c : Node} (h : c ∈ root.children) :
    sizeOf c < sizeOf root :=
  lt_trans (List.sizeOf_lt_of_mem h) (Node.sizeOf_children_lt root)

/-- The parent-equals-root filter keeps exactly the direct children of
the root whose kind matches the pattern: all deeper matches have a
strictly smaller positional parent, which can never equal the root. -/
theorem queryMatchesList_root_filter (root : Node) (k : String) :
    ∀ cs : List Node, (∀ c ∈ cs, sizeOf c < sizeOf root) →
      ((queryMatchesList k root cs).filter
          (fun pc => Node.beq pc.1 root)).map (fun pc => pc.2) =
        cs.filter (fun c => decide (c.kind = k))
  | [], _ => rfl
  | c :: rest, hsz => by
    rw [queryMatchesList, queryMatchesNode_eq, List.filter_append,
      List.filter_append, List.map_append, List.map_append]
    have hS2 : (queryMatchesList k c c.children).filter
        (fun pc => Node.beq pc.1 root) = [] := by
      rw [List.filter_eq_nil_iff]
      intro pc hpc
      have hszlt : sizeOf pc.1 < sizeOf root := by
        rcases qmList_parent k c c.children pc hpc with h1 | ⟨cc, hcc, hle⟩
        · rw [h1]
          exact hsz c (by simp)
        · have h2 := sizeOf_mem_children_lt hcc
          have h3 := hsz c (by simp)
          omega
      intro hbeq
      rw [Node.eq_of_beq _ _ hbeq] at hszlt
      omega
    have hS1 : (((if c.kind = k then [(root, c)] else []).filter
        (fun pc => Node.beq pc.1 root)).map (fun pc => pc.2)) =
        if c.kind = k then [c] else [] := by
      by_cases hk : c.kind = k
      · rw [if_pos hk, if_pos hk]
        simp [List.filter, Node.beq_refl root]
      · rw [if_neg hk, if_neg hk]
        rfl
    rw [hS2, hS1, List.map_nil, List.filter_cons,
      queryMatchesList_root_filter root k rest
        (fun x hx => hsz x (List.mem_cons_of_mem c hx))]
    by_cases hk : c.kind = k
    · rw [if_pos hk, if_pos (by simp [hk])]
      rfl
    · rw [if_neg hk, if_neg (by simp [hk])]
      rfl

/-- Symbols built by the kind-specific helpers come from top-level
children: shared shape of the four helpers. -/
theorem helper_symbols_topLevel (doc : Document) (P : String) :
    ∀ s ∈ (match QueryCaptures doc P with
      | .error _ => (([] : List Symbol), (none : Option String))
      | .ok caps =>
        (caps.map (fun c => EverythingExceptBody doc (some doc.root) c),
          none)).1,
      s.node ∈ doc.root.children := by
  cases hq : QueryCaptures doc P with
  | error e =>
    intro s hs
    simp at hs
  | ok caps =>
    intro s hs
    simp only [] at hs
    rcases List.mem_map.mp hs with ⟨c, hc, hEq⟩
    have hcaps : caps = doc.root.children.filter
        (fun c => decide (c.kind = patternKind P)) := by
      unfold QueryCaptures at hq
      cases hce : doc.compileError P with
      | some e => rw [hce] at hq; exact absurd hq (by simp)
      | none =>
        rw [hce] at hq
        have h2 := (Except.ok.injEq .. ▸ hq)
        rw [← h2, queryMatchesList_root_filter doc.root (patternKind P)
          doc.root.children (fun x hx => sizeOf_mem_children_lt hx)]
    rw [← hEq]
    have : c ∈ caps := hc
    rw [hcaps] at this
    exact (List.mem_filter.mp this).1

/-- C2: a capture is accepted by `QueryCaptures` exactly when its
captured node is a direct child of the document root with the queried
kind (the callback sees exactly those captures, in order), and
consequently every symbol produced by the four kind-specific queries
comes from a node whose parent is the root — nested declarations are
never returned. -/
theorem queryCaptures_topLevel (doc : Document) (pattern : String)
    (caps : List Node) (h : QueryCaptures doc pattern = .ok caps) :
    caps = doc.root.children.filter
      (fun c => decide (c.kind = patternKind pattern)) ∧
    (∀ c, c ∈ caps ↔
      (c ∈ doc.root.children ∧ c.kind = patternKind pattern)) ∧
    (∀ s ∈ (QueryFunctions doc).1, s.node ∈ doc.root.children) ∧
    (∀ s ∈ (QueryMethods doc).1, s.node ∈ doc.root.children) ∧
    (∀ s ∈ (QueryTypeDefinitions doc).1, s.node ∈ doc.root.children) ∧
    (∀ s ∈ (QueryVarDeclarations doc).1, s.node ∈ doc.root.children) := by
  have hcaps : caps = doc.root.children.filter
      (fun c => decide (c.kind = patternKind pattern)) := by
    unfold QueryCaptures at h
    cases hce : doc.compileError pattern with
    | some e => rw [hce] at h; exact absurd h (by simp)
    | none =>
      rw [hce] at h
      have h2 := (Except.ok.injEq .. ▸ h)
      rw [← h2, queryMatchesList_root_filter doc.root (patternKind pattern)
        doc.root.children (fun x hx => sizeOf_mem_children_lt hx)]
  refine ⟨hcaps, ?_, ?_, ?_, ?_, ?_⟩
  · intro c
    rw [hcaps, List.mem_filter]
    simp
  · exact helper_symbols_topLevel doc "(function_declaration) @dec"
  · exact helper_symbols_topLevel doc "(method_declaration) @method"
  · exact helper_symbols_topLevel doc "(type_spec) @type.name"
  · exact helper_symbols_topLevel doc "(var_declaration) @dec"

/-- Witness for C2 at the example document and the function pattern. -/
theorem queryCaptures_topLevel_witness :
    [exFunc] = exDoc.root.children.filter
      (fun c => decide (c.kind = patternKind "(function_declaration) @dec")) ∧
    (∀ c, c ∈ [exFunc] ↔
      (c ∈ exDoc.root.children ∧
        c.kind = patternKind "(function_declaration) @dec")) ∧
    (∀ s ∈ (QueryFunctions exDoc).1, s.node ∈ exDoc.root.children) ∧
    (∀ s ∈ (QueryMethods exDoc).1, s.node ∈ exDoc.root.children) ∧
    (∀ s ∈ (QueryTypeDefinitions exDoc).1, s.node ∈ exDoc.root.children) ∧
    (∀ s ∈ (QueryVarDeclarations exDoc).1, s.node ∈ exDoc.root.children) :=
  queryCaptures_topLevel exDoc "(function_declaration) @dec" [exFunc] (by rfl)

/-! ### Strict ordering of the symbol catalog -/

/-- The start byte reported by `EverythingExceptBody` is the widened
start. -/
theorem everythingExceptBody_startByte (doc : Document) (parent node : Node) :
    (EverythingExceptBody doc (some parent) node).range.startByte =
      widenedStart doc.sourceCode parent.children node := by
  have htext := precedingComments_text node parent doc.sourceCode
  unfold EverythingExceptBody widenedStart
  by_cases hj : joinNewline ((attachedRun node.startByte parent.children).map
      (fun c => c.content doc.sourceCode)) = []
  · have hnil : (precedingComments node (some parent) doc.sourceCode).1 = [] :=
      htext.trans hj
    have hcond :
        ¬ ((precedingComments node (some parent) doc.sourceCode).1 ≠ []) := by
      rw [hnil]
      simp
    simp only [if_neg hcond, if_pos hj]
    rfl
  · have hne : (precedingComments node (some parent) doc.sourceCode).1
        ≠ [] := by
      rw [htext]
      exact hj
    have hrunne : attachedRun node.startByte parent.children ≠ [] := by
      intro hc
      apply hj
      rw [hc]
      rfl
    obtain ⟨r0, rs, hrun⟩ : ∃ r0 rs,
        attachedRun node.startByte parent.children = r0 :: rs := by
      cases hx : attachedRun node.startByte parent.children with
      | nil => exact absurd hx hrunne
      | cons a b => exact ⟨a, b, rfl⟩
    have hstart := precedingComments_startInfo node parent doc.sourceCode
      r0 rs hrun
    have h22 : (precedingComments node (some parent) doc.sourceCode).2.2 =
        r0.startByte := by
      rw [hstart]
    simp only [if_pos hne, if_neg hj]
    rw [hrun]
    simp [h22]

/-- Comment widening only moves a start byte backward. -/
theorem widenedStart_le (src : List Char) (L : List Node) (n : Node)
    (hse : ∀ x ∈ L, x.startByte ≤ x.endByte) :
    widenedStart src L n ≤ n.startByte := by
  unfold widenedStart
  by_cases hj : joinNewline ((attachedRun n.startByte L).map
      (fun c => c.content src)) = []
  · rw [if_pos hj]
  · rw [if_neg hj]
    have hrunne : attachedRun n.startByte L ≠ [] := by
      intro hc
      apply hj
      rw [hc]
      rfl
    obtain ⟨r0, rs, hrun⟩ : ∃ r0 rs, attachedRun n.startByte L = r0 :: rs := by
      cases hx : attachedRun n.startByte L with
      | nil => exact absurd hx hrunne
      | cons a b => exact ⟨a, b, rfl⟩
    rw [hrun]
    simp only [List.headD_cons]
    have hr0run : r0 ∈ attachedRun n.startByte L := by
      rw [hrun]
      simp
    have hr0cp : r0 ∈ commentPrefix n.startByte L :=
      (maxCommentSuffix_suffix _).subset hr0run
    have hlt : r0.endByte < n.startByte := by
      have := List.mem_takeWhile_imp hr0cp
      simpa using this
    have hr0L : r0 ∈ L :=
      (List.takeWhile_sublist _).subset hr0cp
    have := hse r0 hr0L
    omega

theorem pair_sublist_split {α : Type} {a b : α} :
    ∀ {l : List α}, [a, b].Sublist l →
      ∃ s t u, l = s ++ a :: (t ++ b :: u) := by
  intro l
  induction l with
  | nil =>
    intro h
    rw [List.sublist_nil] at h
    simp at h
  | cons x xs ih =>
    intro h
    cases h with
    | cons _ h2 =>
      obtain ⟨s, t, u, rfl⟩ := ih h2
      exact ⟨x :: s, t, u, rfl⟩
    | cons₂ _ h2 =>
      obtain ⟨t, u, rfl⟩ := List.append_of_mem (List.singleton_sublist.mp h2)
      exact ⟨[], t, u, rfl⟩

/-- The widened starts of two declarations are strictly ordered when the
earlier one is not a comment: in a well-formed sibling list, the later
declaration's attached run lies strictly after the earlier declaration. -/
theorem widenedStart_mono (src : List Char) {L : List Node}
    (hwf : SiblingsWellFormed L) {A B C : List Node} {n m : Node}
    (hL : L = A ++ n :: (B ++ m :: C)) (hn : n.kind ≠ "comment") :
    widenedStart src L n < widenedStart src L m := by
  obtain ⟨hpw, hse⟩ := hwf
  subst hL
  rw [List.pairwise_append] at hpw
  obtain ⟨hpwA, hpwR, hcross⟩ := hpw
  rw [List.pairwise_cons] at hpwR
  obtain ⟨hnAll, hpwBmC⟩ := hpwR
  have hBm : ∀ x ∈ B, x.endByte < m.startByte := by
    rw [List.pairwise_append] at hpwBmC
    intro x hx
    exact hpwBmC.2.2 x hx m (by simp)
  have hnm : n.endByte < m.startByte := hnAll m (by simp)
  have hnn : n.startByte ≤ n.endByte := hse n (by simp)
  have hmm : m.startByte ≤ m.endByte := hse m (by simp)
  have hws_n := widenedStart_le src (A ++ n :: (B ++ m :: C)) n hse
  have hcp : commentPrefix m.startByte (A ++ n :: (B ++ m :: C)) =
      A ++ n :: B := by
    have hre : A ++ n :: (B ++ m :: C) = (A ++ n :: B) ++ m :: C := by
      simp
    rw [hre]
    apply takeWhile_middle_eq
    · simp
      omega
    · intro x hx
      rcases List.mem_append.mp hx with hxA | hxnB
      · have := hcross x hxA m (by simp)
        simp
        omega
      · rcases List.mem_cons.mp hxnB with rfl | hxB
        · simp
          omega
        · have := hBm x hxB
          simp
          omega
  cases hrunm : attachedRun m.startByte (A ++ n :: (B ++ m :: C)) with
  | nil =>
    have hwsm : widenedStart src (A ++ n :: (B ++ m :: C)) m =
        m.startByte := by
      unfold widenedStart
      rw [hrunm]
      simp [joinNewline]
    rw [hwsm]
    omega
  | cons r0 rs =>
    by_cases hj : joinNewline (((r0 :: rs).map (fun c => c.content src)))
        = []
    · have hwsm : widenedStart src (A ++ n :: (B ++ m :: C)) m =
          m.startByte := by
        unfold widenedStart
        rw [hrunm, if_pos hj]
      rw [hwsm]
      omega
    · have hwsm : widenedStart src (A ++ n :: (B ++ m :: C)) m =
          r0.startByte := by
        unfold widenedStart
        rw [hrunm, if_neg hj]
        rfl
      have hmcs : maxCommentSuffix B = r0 :: rs := by
        have h1 : attachedRun m.startByte (A ++ n :: (B ++ m :: C)) =
            maxCommentSuffix (A ++ n :: B) := by
          rw [attachedRun, hcp]
        rw [h1, maxCommentSuffix_append_break hn A B] at hrunm
        exact hrunm
      have hr0B : r0 ∈ B := by
        apply (maxCommentSuffix_suffix B).subset
        rw [hmcs]
        simp
      have hnr0 : n.endByte < r0.startByte :=
        hnAll r0 (List.mem_append_left _ hr0B)
      rw [hwsm]
      omega

theorem patternKind_function :
    patternKind "(function_declaration) @dec" = "function_declaration" := rfl

theorem patternKind_method :
    patternKind "(method_declaration) @method" = "method_declaration" := rfl

theorem patternKind_type : patternKind "(type_spec) @type.name" = "type_spec" :=
  rfl

theorem patternKind_var :
    patternKind "(var_declaration) @dec" = "var_declaration" := rfl

/-- Shared shape of the four kind-specific helpers: either the pattern
fails to compile (empty list, nil error) or the helper returns the
assembled symbols of the matching top-level children (nil error). -/
theorem helper_cases (doc : Document) (P : String) :
    (match QueryCaptures doc P with
      | .error _ => (([] : List Symbol), (none : Option String))
      | .ok caps =>
        (caps.map (fun c => EverythingExceptBody doc (some doc.root) c),
          none)) = (([] : List Symbol), (none : Option String)) ∨
    (match QueryCaptures doc P with
      | .error _ => (([] : List Symbol), (none : Option String))
      | .ok caps =>
        (caps.map (fun c => EverythingExceptBody doc (some doc.root) c),
          none)) =
      ((doc.root.children.filter
          (fun c => decide (c.kind = patternKind P))).map
        (fun c => EverythingExceptBody doc (some doc.root) c), none) := by
  cases hq : QueryCaptures doc P with
  | error e => exact Or.inl rfl
  | ok caps =>
    right
    have hcaps : caps = doc.root.children.filter
        (fun c => decide (c.kind = patternKind P)) := by
      unfold QueryCaptures at hq
      cases hce : doc.compileError P with
      | some e => rw [hce] at hq; exact absurd hq (by simp)
      | none =>
        rw [hce] at hq
        have h2 := (Except.ok.injEq .. ▸ hq)
        rw [← h2, queryMatchesList_root_filter doc.root (patternKind P)
          doc.root.children (fun x hx => sizeOf_mem_children_lt hx)]
    rw [hcaps]

theorem queryMethods_cases (doc : Document) :
    QueryMethods doc = ([], none) ∨
    QueryMethods doc =
      ((doc.root.children.filter
          (fun c => decide (c.kind = "method_declaration"))).map
        (fun c => EverythingExceptBody doc (some doc.root) c), none) := by
  have h := helper_cases doc "(method_declaration) @method"
  rw [patternKind_method] at h
  exact h

theorem queryFunctions_cases (doc : Document) :
    QueryFunctions doc = ([], none) ∨
    QueryFunctions doc =
      ((doc.root.children.filter
          (fun c => decide (c.kind = "function_declaration"))).map
        (fun c => EverythingExceptBody doc (some doc.root) c), none) := by
  have h := helper_cases doc "(function_declaration) @dec"
  rw [patternKind_function] at h
  exact h

theorem queryTypeDefinitions_cases (doc : Document) :
    QueryTypeDefinitions doc = ([], none) ∨
    QueryTypeDefinitions doc =
      ((doc.root.children.filter
          (fun c => decide (c.kind = "type_spec"))).map
        (fun c => EverythingExceptBody doc (some doc.root) c), none) := by
  have h := helper_cases doc "(type_spec) @type.name"
  rw [patternKind_type] at h
  exact h

theorem queryVarDeclarations_cases (doc : Document) :
    QueryVarDeclarations doc = ([], none) ∨
    QueryVarDeclarations doc =
      ((doc.root.children.filter
          (fun c => decide (c.kind = "var_declaration"))).map
        (fun c => EverythingExceptBody doc (some doc.root) c), none) := by
  have h := helper_cases doc "(var_declaration) @dec"
  rw [patternKind_var] at h
  exact h

/-- Two filters by disjoint predicates, concatenated, permute to one
filter by their disjunction. -/
theorem filter_append_perm_or {α : Type} (p q : α → Bool)
    (hdisj : ∀ x, p x = true → q x = false) :
    ∀ l : List α,
      (l.filter p ++ l.filter q).Perm (l.filter (fun x => p x || q x))
  | [] => List.Perm.refl _
  | x :: l => by
    rw [List.filter_cons, List.filter_cons, List.filter_cons]
    by_cases hp : p x = true
    · have hq := hdisj x hp
      rw [if_pos hp, if_neg (by simp [hq]), if_pos (by simp [hp]),
        List.cons_append]
      exact (filter_append_perm_or p q hdisj l).cons x
    · by_cases hq : q x = true
      · rw [if_neg (by simp [hp]), if_pos hq, if_pos (by simp [hp, hq])]
        exact List.perm_middle.trans ((filter_append_perm_or p q hdisj l).cons x)
      · rw [if_neg (by simp [hp]), if_neg (by simp [hq]),
          if_neg (by simp [hp, hq])]
        exact filter_append_perm_or p q hdisj l

/-- C1: for every well-formed document, the catalog returned by
`QuerySymbols` is strictly ascending by range start byte (start bytes
possibly widened backward by comment attachment): every pair of returned
symbols, in order, has strictly increasing start bytes, and no two
returned symbols report the same start byte. -/
theorem querySymbols_strictly_ascending (doc : Document)
    (hwf : SiblingsWellFormed doc.root.children)
    (syms : List Symbol) (h : QuerySymbols doc = .ok syms) :
    syms.Pairwise
      (fun s t => s.range.startByte < t.range.startByte) ∧
    (syms.map (fun s => s.range.startByte)).Nodup := by
  have hse := hwf.2
  -- the four kind-specific results, each a sublist of its full filter-map
  have hm : ∃ mList, QueryMethods doc = (mList, none) ∧
      mList.Sublist ((doc.root.children.filter
        (fun c => decide (c.kind = "method_declaration"))).map
          (fun c => EverythingExceptBody doc (some doc.root) c)) := by
    rcases queryMethods_cases doc with h1 | h1
    · exact ⟨[], h1, List.nil_sublist _⟩
    · exact ⟨_, h1, List.Sublist.refl _⟩
  have hf : ∃ fList, QueryFunctions doc = (fList, none) ∧
      fList.Sublist ((doc.root.children.filter
        (fun c => decide (c.kind = "function_declaration"))).map
          (fun c => EverythingExceptBody doc (some doc.root) c)) := by
    rcases queryFunctions_cases doc with h1 | h1
    · exact ⟨[], h1, List.nil_sublist _⟩
    · exact ⟨_, h1, List.Sublist.refl _⟩
  have ht : ∃ tList, QueryTypeDefinitions doc = (tList, none) ∧
      tList.Sublist ((doc.root.children.filter
        (fun c => decide (c.kind = "type_spec"))).map
          (fun c => EverythingExceptBody doc (some doc.root) c)) := by
    rcases queryTypeDefinitions_cases doc with h1 | h1
    · exact ⟨[], h1, List.nil_sublist _⟩
    · exact ⟨_, h1, List.Sublist.refl _⟩
  have hv : ∃ vList, QueryVarDeclarations doc = (vList, none) ∧
      vList.Sublist ((doc.root.children.filter
        (fun c => decide (c.kind = "var_declaration"))).map
          (fun c => EverythingExceptBody doc (some doc.root) c)) := by
    rcases queryVarDeclarations_cases doc with h1 | h1
    · exact ⟨[], h1, List.nil_sublist _⟩
    · exact ⟨_, h1, List.Sublist.refl _⟩
  obtain ⟨mList, hmEq, hmSub⟩ := hm
  obtain ⟨fList, hfEq, hfSub⟩ := hf
  obtain ⟨tList, htEq, htSub⟩ := ht
  obtain ⟨vList, hvEq, hvSub⟩ := hv
  have hsyms : syms =
      (mList ++ fList ++ tList ++ vList).insertionSort symbolLe := by
    unfold QuerySymbols at h
    rw [hmEq, hfEq, htEq, hvEq] at h
    have := (Except.ok.injEq .. ▸ h)
    rw [this]
  -- the widened starts of all matched declarations are pairwise distinct
  have hPW : doc.root.children.Pairwise
      (fun a b => a.kind ≠ "comment" →
        widenedStart doc.sourceCode doc.root.children a <
          widenedStart doc.sourceCode doc.root.children b) := by
    rw [List.pairwise_iff_forall_sublist]
    intro a b hsub hak
    obtain ⟨A, B, C, hL⟩ := pair_sublist_split hsub
    exact widenedStart_mono doc.sourceCode hwf hL hak
  have hAnyPW : (doc.root.children.filter
      (fun c => decide (c.kind = "method_declaration") ||
        (decide (c.kind = "function_declaration") ||
          (decide (c.kind = "type_spec") ||
            decide (c.kind = "var_declaration"))))).Pairwise
        (fun a b => widenedStart doc.sourceCode doc.root.children a <
          widenedStart doc.sourceCode doc.root.children b) := by
    refine List.Pairwise.imp_of_mem ?_ (hPW.filter _)
    intro a b ha _ hr
    apply hr
    have := (List.mem_filter.mp ha).2
    simp only [Bool.or_eq_true, decide_eq_true_eq] at this
    rcases this with h1 | h1 | h1 | h1 <;> simp [h1]
  have hAnyNodup : ((doc.root.children.filter
      (fun c => decide (c.kind = "method_declaration") ||
        (decide (c.kind = "function_declaration") ||
          (decide (c.kind = "type_spec") ||
            decide (c.kind = "var_declaration"))))).map
      (widenedStart doc.sourceCode doc.root.children)).Nodup :=
    hAnyPW.map _ (fun a b hab => Nat.ne_of_lt hab)
  -- assemble the permutation of the four filters
  have h34 := filter_append_perm_or
    (fun c : Node => decide (c.kind = "type_spec"))
    (fun c : Node => decide (c.kind = "var_declaration"))
    (by
      intro x hx
      simp only [decide_eq_true_eq] at hx
      simp [hx])
    doc.root.children
  have h234 := filter_append_perm_or
    (fun c : Node => decide (c.kind = "function_declaration"))
    (fun c : Node => decide (c.kind = "type_spec") ||
      decide (c.kind = "var_declaration"))
    (by
      intro x hx
      simp only [decide_eq_true_eq] at hx
      simp [hx])
    doc.root.children
  have h1234 := filter_append_perm_or
    (fun c : Node => decide (c.kind = "method_declaration"))
    (fun c : Node => decide (c.kind = "function_declaration") ||
      (decide (c.kind = "type_spec") || decide (c.kind = "var_declaration")))
    (by
      intro x hx
      simp only [decide_eq_true_eq] at hx
      simp [hx])
    doc.root.children
  have hfilters : (doc.root.children.filter
        (fun c => decide (c.kind = "method_declaration")) ++
      (doc.root.children.filter
        (fun c => decide (c.kind = "function_declaration")) ++
      (doc.root.children.filter (fun c => decide (c.kind = "type_spec")) ++
      doc.root.children.filter
        (fun c => decide (c.kind = "var_declaration"))))).Perm
      (doc.root.children.filter
        (fun c => decide (c.kind = "method_declaration") ||
          (decide (c.kind = "function_declaration") ||
            (decide (c.kind = "type_spec") ||
              decide (c.kind = "var_declaration"))))) := by
    refine List.Perm.trans ?_ h1234
    refine List.Perm.append_left _ ?_
    refine List.Perm.trans ?_ h234
    exact List.Perm.append_left _ h34
  -- the map of any kind-specific symbol list to start bytes is a sublist
  -- of that filter's widened starts
  have key : ∀ (kList : List Symbol) (p : Node → Bool),
      kList.Sublist ((doc.root.children.filter p).map
        (fun c => EverythingExceptBody doc (some doc.root) c)) →
      (kList.map (fun s => s.range.startByte)).Sublist
        ((doc.root.children.filter p).map
          (widenedStart doc.sourceCode doc.root.children)) := by
    intro kList p hsub
    have h1 := hsub.map (fun s => s.range.startByte)
    rw [List.map_map] at h1
    have h2 : ((doc.root.children.filter p).map
        ((fun s => s.range.startByte) ∘
          (fun c => EverythingExceptBody doc (some doc.root) c))) =
        ((doc.root.children.filter p).map
          (widenedStart doc.sourceCode doc.root.children)) := by
      apply List.map_congr_left
      intro a _
      exact everythingExceptBody_startByte doc doc.root a
    rw [h2] at h1
    exact h1
  have hNodupComb :
      ((mList ++ fList ++ tList ++ vList).map
        (fun s => s.range.startByte)).Nodup := by
    have hbigNodup : ((doc.root.children.filter
          (fun c => decide (c.kind = "method_declaration"))).map
            (widenedStart doc.sourceCode doc.root.children) ++
        ((doc.root.children.filter
          (fun c => decide (c.kind = "function_declaration"))).map
            (widenedStart doc.sourceCode doc.root.children) ++
        ((doc.root.children.filter
          (fun c => decide (c.kind = "type_spec"))).map
            (widenedStart doc.sourceCode doc.root.children) ++
        (doc.root.children.filter
          (fun c => decide (c.kind = "var_declaration"))).map
            (widenedStart doc.sourceCode doc.root.children)))).Nodup := by
      have hperm := (hfilters.map
        (widenedStart doc.sourceCode doc.root.children)).symm
      rw [List.map_append, List.map_append, List.map_append] at hperm
      exact hperm.nodup hAnyNodup
    have hsubAll : ((mList ++ fList ++ tList ++ vList).map
        (fun s => s.range.startByte)).Sublist
        ((doc.root.children.filter
          (fun c => decide (c.kind = "method_declaration"))).map
            (widenedStart doc.sourceCode doc.root.children) ++
        ((doc.root.children.filter
          (fun c => decide (c.kind = "function_declaration"))).map
            (widenedStart doc.sourceCode doc.root.children) ++
        ((doc.root.children.filter
          (fun c => decide (c.kind = "type_spec"))).map
            (widenedStart doc.sourceCode doc.root.children) ++
        (doc.root.children.filter
          (fun c => decide (c.kind = "var_declaration"))).map
            (widenedStart doc.sourceCode doc.root.children)))) := by
      rw [List.map_append, List.map_append, List.map_append,
        List.append_assoc, List.append_assoc]
      exact List.Sublist.append (key mList _ hmSub)
        (List.Sublist.append (key fList _ hfSub)
          (List.Sublist.append (key tList _ htSub) (key vList _ hvSub)))
    exact hsubAll.nodup hbigNodup
  have hkeyN : (syms.map (fun s => s.range.startByte)).Nodup := by
    have hperm : ((mList ++ fList ++ tList ++ vList).map
        (fun s => s.range.startByte)).Perm
        (syms.map (fun s => s.range.startByte)) := by
      rw [hsyms]
      exact ((List.perm_insertionSort symbolLe
        (mList ++ fList ++ tList ++ vList)).map _).symm
    exact hperm.nodup hNodupComb
  have hsorted : syms.Pairwise symbolLe := by
    rw [hsyms]
    exact List.sorted_insertionSort symbolLe (mList ++ fList ++ tList ++ vList)
  have hne : syms.Pairwise
      (fun s t => s.range.startByte ≠ t.range.startByte) :=
    List.pairwise_map.mp hkeyN
  refine ⟨?_, hkeyN⟩
  exact (hsorted.and hne).imp
    (fun hab => Nat.lt_of_le_of_ne hab.1 hab.2)

/-- Witness for C1 at the example document. -/
theorem querySymbols_strictly_ascending_witness :
    ([{ summary := "// doc\nfunc F()".toList,
        range := { startPoint := ⟨0, 0⟩, endPoint := ⟨1, 11⟩,
                   startByte := 0, endByte := 18 },
        node := exFunc }] : List Symbol).Pairwise
      (fun s t => s.range.startByte < t.range.startByte) ∧
    (([{ summary := "// doc\nfunc F()".toList,
         range := { startPoint := ⟨0, 0⟩, endPoint := ⟨1, 11⟩,
                    startByte := 0, endByte := 18 },
         node := exFunc }] : List Symbol).map
      (fun s => s.range.startByte)).Nodup :=
  querySymbols_strictly_ascending exDoc
    (by
      refine ⟨List.Pairwise.cons ?_ (List.pairwise_singleton _ _), ?_⟩
      · intro b hb
        rw [List.mem_singleton.mp hb]
        decide
      · intro n hn
        rcases List.mem_cons.mp hn with hx | hx
        · rw [hx]
          decide
        · rw [List.mem_singleton.mp hx]
          decide)
    _ (by rfl)

end Tako
